import Mathlib

/-!
Verification development for the CloudPyASDF repository.

The Python sources are shallowly embedded: the structural-index codec
(`gen_group_dict`, `dump_dict`, `read_dict`, `readp_dict` in
`CloudPyASDF/utils.py`), the name parser (`parse_trace`), the accessor
logic (`StationAccessor`, `WaveformAccessor.filter_data`,
`AuxiliaryDataGroupAccessor`) and the dataset object
(`CloudASDFDataSet.read_trace`, `read_events`, `read_asdfdict` in
`CloudPyASDF/asdf_data_set.py`).

External collaborators (h5py / h5coro gateway reads, gzip, obspy) are
modelled by explicit simple stand-ins: the gateway is a function from
paths to optional byte payloads, gzip is an invertible magic-prefixed
coding with failing decompression on unprefixed input, and obspy parse
results are kept as opaque constructors holding the raw bytes.
Byte strings are modelled as lists of characters.
-/

namespace CloudPyASDF

/-- Byte strings of the Python code are modelled as lists of characters. -/
abbrev Bytes := List Char

/-- The single-quote character used by the textual repr of Python dicts. -/
def qc : Char := Char.ofNat 39

/-- The backslash character (escaped by the Python repr, hence excluded from valid names). -/
def bslash : Char := Char.ofNat 92

/-- Opening curly brace. -/
def lbrace : Char := Char.ofNat 123

/-- Closing curly brace. -/
def rbrace : Char := Char.ofNat 125

/-- Decimal digit character for a value below ten. -/
def digitChar (n : Nat) : Char := Char.ofNat (48 + n)

/-- Fuelled decimal printer (fuel makes it structurally recursive so the
kernel can evaluate it; `natChars` supplies enough fuel). -/
def natCharsAux : Nat → Nat → Bytes
  | 0, _ => []
  | fuel + 1, n =>
    if n < 10 then [digitChar n]
    else natCharsAux fuel (n / 10) ++ [digitChar (n % 10)]

/-- Decimal digits of a natural number, most significant first, as the
Python `str` of an `int` renders them. -/
def natChars (n : Nat) : Bytes := natCharsAux (n + 1) n

/-- Numeric value of a list of decimal digit characters. -/
def natOfDigits (ds : Bytes) : Nat := ds.foldl (fun a c => a * 10 + (c.toNat - 48)) 0

theorem natOfDigits_append (l r : Bytes) :
    natOfDigits (l ++ r) = r.foldl (fun a c => a * 10 + (c.toNat - 48)) (natOfDigits l) := by
  simp [natOfDigits, List.foldl_append]

theorem natCharsAux_const (fuel₁ fuel₂ n : Nat) (h₁ : n < fuel₁) (h₂ : n < fuel₂) :
    natCharsAux fuel₁ n = natCharsAux fuel₂ n := by
  induction fuel₁ generalizing fuel₂ n with
  | zero => omega
  | succ f ih =>
    cases fuel₂ with
    | zero => omega
    | succ g =>
      simp only [natCharsAux]
      by_cases h : n < 10
      · simp [h]
      · have hd : n / 10 < n := Nat.div_lt_self (by omega) (by omega)
        simp only [if_neg h]
        rw [ih g (n / 10) (by omega) (by omega)]

theorem natChars_eq_aux (fuel n : Nat) (h : n < fuel) : natCharsAux fuel n = natChars n :=
  natCharsAux_const fuel (n + 1) n h (Nat.lt_succ_self n)

theorem digitChar_isDigit (n : Nat) (h : n < 10) : (digitChar n).isDigit = true := by
  interval_cases n <;> decide

theorem digitChar_toNat (n : Nat) (h : n < 10) : (digitChar n).toNat = 48 + n := by
  interval_cases n <;> decide

theorem natChars_all_digits (n : Nat) : ∀ c ∈ natChars n, c.isDigit = true := by
  rw [natChars]
  generalize hf : n + 1 = fuel
  have h : n < fuel := by omega
  clear hf
  induction fuel generalizing n with
  | zero => omega
  | succ f ih =>
    intro c hc
    simp only [natCharsAux] at hc
    by_cases h10 : n < 10
    · simp [h10] at hc
      subst hc
      exact digitChar_isDigit n h10
    · have hd : n / 10 < n := Nat.div_lt_self (by omega) (by omega)
      simp only [if_neg h10, List.mem_append, List.mem_singleton] at hc
      rcases hc with hc | hc
      · exact ih (n / 10) (by omega) c hc
      · subst hc
        exact digitChar_isDigit (n % 10) (Nat.mod_lt n (by omega))

theorem natChars_ne_nil (n : Nat) : natChars n ≠ [] := by
  rw [natChars]
  generalize hf : n + 1 = fuel
  have h : n < fuel := by omega
  clear hf
  cases fuel with
  | zero => omega
  | succ f =>
    simp only [natCharsAux]
    by_cases h10 : n < 10 <;> simp [h10]

theorem natOfDigits_natChars (n : Nat) : natOfDigits (natChars n) = n := by
  rw [natChars]
  generalize hf : n + 1 = fuel
  have h : n < fuel := by omega
  clear hf
  induction fuel generalizing n with
  | zero => omega
  | succ f ih =>
    simp only [natCharsAux]
    by_cases h10 : n < 10
    · simp [h10, natOfDigits, digitChar_toNat n h10]
    · have hd : n / 10 < n := Nat.div_lt_self (by omega) (by omega)
      simp only [if_neg h10]
      rw [natOfDigits_append]
      simp only [List.foldl_cons, List.foldl_nil]
      rw [ih (n / 10) (by omega)]
      rw [digitChar_toNat (n % 10) (Nat.mod_lt n (by omega))]
      omega

theorem natChars_length_le (k n : Nat) (h : n < 10 ^ k) (hk : 1 ≤ k) :
    (natChars n).length ≤ k := by
  rw [natChars]
  generalize hf : n + 1 = fuel
  have hlt : n < fuel := by omega
  clear hf
  induction fuel generalizing n k with
  | zero => omega
  | succ f ih =>
    simp only [natCharsAux]
    by_cases h10 : n < 10
    · simp [h10]; omega
    · have hd : n / 10 < n := Nat.div_lt_self (by omega) (by omega)
      simp only [if_neg h10, List.length_append, List.length_singleton]
      cases k with
      | zero => omega
      | succ k' =>
        have hk' : 1 ≤ k' := by
          by_contra hc
          have : k' = 0 := by omega
          subst this
          simp [pow_succ] at h
          omega
        have hn : n / 10 < 10 ^ k' := by
          have : n < 10 ^ k' * 10 := by
            calc n < 10 ^ (k' + 1) := h
            _ = 10 ^ k' * 10 := by ring
          omega
        have := ih k' (n / 10) hn hk' (by omega)
        omega

/-!
## Python values and expressions

`read_dict` decodes the stored index text with the Python `eval`
built-in, after importing `numpy.array` and `numpy.float32` so that
non-literal payloads evaluate.  We model the relevant fragment of
Python expressions: integer literals, string literals, dict literals
and the binary `+` operator (enough to distinguish a general-purpose
evaluator from a pure literal parser).  Evaluated values are `PyObj`.
-/

mutual

/-- A Python value of the shapes produced by `gen_group_dict` and by
evaluating stored index payloads: int, str, or dict with string keys. -/
inductive PyObj where
  | int (n : Nat) : PyObj
  | str (s : String) : PyObj
  | dict (es : PyEntries) : PyObj

/-- The ordered key-value entries of a Python dict value. -/
inductive PyEntries where
  | nil : PyEntries
  | cons (k : String) (v : PyObj) (tl : PyEntries) : PyEntries

end

mutual

/-- A Python expression of the fragment relevant to `eval` on stored
index payloads. -/
inductive PyExpr where
  | intLit (n : Nat) : PyExpr
  | strLit (s : String) : PyExpr
  | dictLit (ps : PyPairs) : PyExpr
  | add (a b : PyExpr) : PyExpr

/-- The ordered key-value expression pairs of a Python dict display. -/
inductive PyPairs where
  | nil : PyPairs
  | cons (k v : PyExpr) (tl : PyPairs) : PyPairs

end

/-- Append two entry lists (used when `dict.update` adds a fresh key). -/
def PyEntries.app : PyEntries → PyEntries → PyEntries
  | .nil, r => r
  | .cons k v tl, r => .cons k v (tl.app r)

/-- Python `dict.update` with a single-key dict: replace the value of an
existing key in place, else append the new key at the end. -/
def PyEntries.updateOne : PyEntries → String → PyObj → PyEntries
  | .nil, k, v => .cons k v .nil
  | .cons k0 v0 tl, k, v =>
    if k0 = k then .cons k0 v tl else .cons k0 v0 (tl.updateOne k v)

/-- The keys of an entry list, in order. -/
def PyEntries.keys : PyEntries → List String
  | .nil => []
  | .cons k _ tl => k :: tl.keys

/-- Python `dict[key]` as an optional lookup (a miss raises `KeyError`). -/
def PyEntries.lookup : PyEntries → String → Option PyObj
  | .nil, _ => none
  | .cons k0 v0 tl, k => if k0 = k then some v0 else tl.lookup k

/-- Python indexing `obj[key]` on a decoded value: only dicts support it. -/
def pyIndex (o : PyObj) (k : String) : Option PyObj :=
  match o with
  | .dict es => es.lookup k
  | _ => none

mutual

/-- Evaluation of the modelled Python expression fragment, as `eval`
performs it: literals evaluate to themselves, `+` adds ints and
concatenates strings, dict displays evaluate their key and value
expressions (keys must evaluate to strings here, the only key shape the
stored index uses). -/
def pyEval : PyExpr → Option PyObj
  | .intLit n => some (.int n)
  | .strLit s => some (.str s)
  | .add a b =>
    match pyEval a, pyEval b with
    | some (.int m), some (.int n) => some (.int (m + n))
    | some (.str s), some (.str t) => some (.str (s ++ t))
    | _, _ => none
  | .dictLit ps =>
    match pyEvalPairs ps with
    | some es => some (.dict es)
    | none => none

/-- Evaluation of the pairs of a dict display, in order. -/
def pyEvalPairs : PyPairs → Option PyEntries
  | .nil => some .nil
  | .cons k v tl =>
    match pyEval k, pyEval v, pyEvalPairs tl with
    | some (.str ks), some vv, some es => some (.cons ks vv es)
    | _, _, _ => none

end

mutual

/-- The pure-literal expression denoting a value (what the canonical
textual encoding of the index spells out). -/
def exprOfV : PyObj → PyExpr
  | .int n => .intLit n
  | .str s => .strLit s
  | .dict es => .dictLit (pairsOfEntries es)

/-- Literal pairs denoting dict entries. -/
def pairsOfEntries : PyEntries → PyPairs
  | .nil => .nil
  | .cons k v tl => .cons (.strLit k) (exprOfV v) (pairsOfEntries tl)

end

mutual

/-- Whether an expression is a pure literal of the canonical key-value
grammar (no operators, string keys only). -/
def isLiteral : PyExpr → Bool
  | .intLit _ => true
  | .strLit _ => true
  | .add _ _ => false
  | .dictLit ps => isLiteralPairs ps

/-- Literal check for dict-display pairs. -/
def isLiteralPairs : PyPairs → Bool
  | .nil => true
  | .cons (.strLit _) v tl => isLiteral v && isLiteralPairs tl
  | .cons _ _ _ => false

end

/-- Valid characters for names stored in the index: printable ASCII
without the single quote, the backslash (both would be escaped by the
Python repr) and the slash (illegal in container node names). -/
def okChar (c : Char) : Bool :=
  32 ≤ c.toNat && c.toNat < 127 && c ≠ qc && c ≠ bslash && c ≠ '/'

/-- A name is valid when all its characters are. -/
def okName (s : String) : Bool := s.data.all okChar

mutual

/-- A value is repr-faithful when every string it contains (keys and
string payloads) is a valid name. -/
def pyValidV : PyObj → Bool
  | .int _ => true
  | .str s => okName s
  | .dict es => pyValidEs es

/-- Validity of dict entries. -/
def pyValidEs : PyEntries → Bool
  | .nil => true
  | .cons k v tl => okName k && pyValidV v && pyValidEs tl

end

/-!
## The textual encoding: the Python `str` of the index dictionary

`dump_dict` serializes with `str(gen_group_dict(...)).encode()`; for the
value shapes at hand `str` renders `\x7b'key': value, ...\x7d` with
single-quoted keys, `: ` after every key and `, ` between entries.
-/

mutual

/-- The Python `str`/`repr` rendering of a value, as a byte list. -/
def reprV : PyObj → Bytes
  | .int n => natChars n
  | .str s => qc :: s.data ++ [qc]
  | .dict es => lbrace :: reprEs es ++ [rbrace]

/-- Rendering of dict entries: `, `-separated `key: value` items. -/
def reprEs : PyEntries → Bytes
  | .nil => []
  | .cons k v tl => qc :: k.data ++ [qc] ++ (':' :: ' ' :: reprV v) ++ reprSep tl

/-- The `, ` separator before the remaining entries, empty at the end. -/
def reprSep : PyEntries → Bytes
  | .nil => []
  | .cons k v tl => ',' :: ' ' :: reprEs (.cons k v tl)

end

mutual

/-- Fuel cost of parsing the rendering of a value (used to pick a fuel
that certainly suffices for the recursive-descent parser below). -/
def costV : PyObj → Nat
  | .int _ => 2
  | .str _ => 2
  | .dict es => 4 + costEs es

/-- Fuel cost of parsing rendered dict entries. -/
def costEs : PyEntries → Nat
  | .nil => 0
  | .cons _ v tl => 4 + costV v + costEs tl

end

/-!
## Parsing the expression fragment

`eval` first parses the stored text and then evaluates it.  The parse
step is modelled by a recursive-descent parser over the expression
fragment; a fuel argument keeps it structurally recursive.
-/

/-- Parse a decimal integer literal (maximal run of digits). -/
def parseNat (cs : Bytes) : Option (Nat × Bytes) :=
  let ds := cs.takeWhile Char.isDigit
  if ds.isEmpty then none
  else some (natOfDigits ds, cs.dropWhile Char.isDigit)

/-- Parse a single-quoted string literal. -/
def parseStrLit (cs : Bytes) : Option (String × Bytes) :=
  match cs with
  | c :: rest =>
    if c = qc then
      match rest.dropWhile (fun d => d ≠ qc) with
      | _ :: rest2 => some (String.mk (rest.takeWhile (fun d => d ≠ qc)), rest2)
      | [] => none
    else none
  | [] => none

/-- Skip one optional space (the Python repr writes one after `:` and
`,`). -/
def skipSpace : Bytes → Bytes
  | [] => []
  | c :: r => if c = ' ' then r else c :: r

mutual

/-- Parse an expression: a primary, optionally followed by `+` and
another expression. -/
def parseExpr : Nat → Bytes → Option (PyExpr × Bytes)
  | 0, _ => none
  | fuel + 1, cs =>
    match parsePrim fuel cs with
    | some (e, rest) =>
      match rest with
      | c :: rest2 =>
        if c = '+' then
          match parseExpr fuel rest2 with
          | some (e2, rest3) => some (.add e e2, rest3)
          | none => none
        else some (e, c :: rest2)
      | [] => some (e, [])
    | none => none

/-- Parse a primary expression: dict display, string literal or int
literal. -/
def parsePrim : Nat → Bytes → Option (PyExpr × Bytes)
  | 0, _ => none
  | fuel + 1, cs =>
    match cs with
    | [] => none
    | c :: rest =>
      if c = lbrace then parseDictRest fuel rest
      else if c = qc then
        match parseStrLit cs with
        | some (s, r) => some (.strLit s, r)
        | none => none
      else if c.isDigit then
        match parseNat cs with
        | some (n, r) => some (.intLit n, r)
        | none => none
      else none

/-- Parse the remainder of a dict display, after the opening brace. -/
def parseDictRest : Nat → Bytes → Option (PyExpr × Bytes)
  | 0, _ => none
  | fuel + 1, cs =>
    match cs with
    | [] => none
    | c :: rest =>
      if c = rbrace then some (.dictLit .nil, rest)
      else
        match parsePairs fuel cs with
        | some (ps, rest2) => some (.dictLit ps, rest2)
        | none => none

/-- Parse one or more `key: value` pairs, separated by commas and closed
by the closing brace (an optional single space may follow `:` and `,`,
as the Python repr emits). -/
def parsePairs : Nat → Bytes → Option (PyPairs × Bytes)
  | 0, _ => none
  | fuel + 1, cs =>
    match parseExpr fuel cs with
    | some (k, rest) =>
      match rest with
      | c0 :: rest1 =>
        if c0 = ':' then
          match parseExpr fuel (skipSpace rest1) with
          | some (v, rest3) =>
            match rest3 with
            | c :: rest4 =>
              if c = ',' then
                match parsePairs fuel (skipSpace rest4) with
                | some (ps, rest6) => some (.cons k v ps, rest6)
                | none => none
              else if c = rbrace then some (.cons k v .nil, rest4)
              else none
            | [] => none
          | none => none
        else none
      | [] => none
    | none => none

end

/-- Parse a whole byte string as one expression, with ample fuel; the
entire input must be consumed (as `eval` requires). -/
def pyParseExpr (cs : Bytes) : Option PyExpr :=
  match parseExpr (4 * cs.length + 5) cs with
  | some (e, []) => some e
  | _ => none

/-- The decode core of `read_dict`/`readp_dict`: the Python `eval` of
the stored text, modelled as parse-then-evaluate over the expression
fragment. -/
def pyEvalDecode (cs : Bytes) : Option PyObj :=
  match pyParseExpr cs with
  | some e => pyEval e
  | none => none

/-- Modelled from the spec: the structured deserializer of the canonical
key-value text grammar that section 4.2 and section 9 require in place
of dynamic evaluation (absent from the source, which uses `eval`).  It
accepts exactly the pure-literal encodings and never evaluates
operators. -/
def kvParse (cs : Bytes) : Option PyObj :=
  match pyParseExpr cs with
  | some e => if isLiteral e then pyEval e else none
  | none => none

/-!
## The byte pipeline: strip, gzip, `read_dict`, `dump_dict`

`_read_string_array` strips ASCII whitespace from both ends of the raw
payload; `read_dict` then attempts gzip decompression, falling back to
the raw bytes, and finally evaluates the text.  gzip is an external
collaborator; it is modelled as an invertible magic-prefixed coding:
compression prepends the two gzip magic bytes, decompression strips
them and fails on input that does not start with them.
-/

/-- ASCII whitespace as Python `bytes.strip` removes it. -/
def wsByte (c : Char) : Bool :=
  c = ' ' || c = Char.ofNat 9 || c = Char.ofNat 10 || c = Char.ofNat 11 ||
    c = Char.ofNat 12 || c = Char.ofNat 13

/-- Python `bytes.strip()`: drop ASCII whitespace from both ends. -/
def pyStrip (cs : Bytes) : Bytes :=
  ((cs.dropWhile wsByte).reverse.dropWhile wsByte).reverse

/-- The helper `_read_string_array` of `utils.py`: `tobytes().strip()`. -/
def read_string_array (cs : Bytes) : Bytes := pyStrip cs

/-- First gzip magic byte. -/
def gzByte1 : Char := Char.ofNat 31

/-- Second gzip magic byte. -/
def gzByte2 : Char := Char.ofNat 139

/-- Model of `gzip.compress`: prepend the gzip magic bytes. -/
def gzipCompress (cs : Bytes) : Bytes := gzByte1 :: gzByte2 :: cs

/-- Model of `gzip.decompress`: strip the magic bytes, failing (raising)
when they are absent. -/
def gzipDecompress (cs : Bytes) : Option Bytes :=
  match cs with
  | a :: b :: rest => if a = gzByte1 && b = gzByte2 then some rest else none
  | _ => none

/-- The `try: decompress except: pass` step of `read_dict`. -/
def decompressFallback (cs : Bytes) : Bytes :=
  match gzipDecompress cs with
  | some r => r
  | none => cs

/-- `read_dict` of `utils.py`: strip the raw payload, attempt gzip
decompression with fallback, then `eval` the text. -/
def read_dict (blob : Bytes) : Option PyObj :=
  pyEvalDecode (decompressFallback (read_string_array blob))

/-- `readp_dict` of `utils.py`: batched variant; each payload fetched at
`pre ++ path ++ suf` is decoded exactly as in `read_dict`, keyed by the
original path.  The gateway is a function from paths to optional raw
payloads. -/
def readp_dict (h5read : String → Option Bytes) (readpList : List String)
    (pre suf : String) : List (String × Option PyObj) :=
  readpList.map (fun p =>
    (p, match h5read (pre ++ p ++ suf) with
        | some raw => pyEvalDecode (decompressFallback (read_string_array raw))
        | none => none))

/-!
## The container hierarchy and `gen_group_dict`

The h5py container is modelled as a tree of named groups and datasets;
each node is reached at a full path (h5py `.name`), and
`gen_group_dict` keeps only the local name, the last component of the
path split on `/`.
-/

mutual

/-- A container node: a dataset with an element count, or a group with
named children in insertion order. -/
inductive H5Obj where
  | dataset (len : Nat) : H5Obj
  | group (children : H5Children) : H5Obj

/-- Named children of a group, in insertion order. -/
inductive H5Children where
  | nil : H5Children
  | cons (name : String) (obj : H5Obj) (tl : H5Children) : H5Children

end

/-- Whether a child list has an entry of the given name. -/
def H5Children.hasName : H5Children → String → Bool
  | .nil, _ => false
  | .cons n _ tl, m => n = m || tl.hasName m

/-- The names of a child list, in order. -/
def H5Children.names : H5Children → List String
  | .nil => []
  | .cons n _ tl => n :: tl.names

/-- Look up a child by name. -/
def H5Children.find : H5Children → String → Option H5Obj
  | .nil, _ => none
  | .cons n o tl, m => if n = m then some o else tl.find m

mutual

/-- Validity of a container tree node: every name is repr-safe and
sibling names are distinct (as h5py guarantees). -/
def validH5 : H5Obj → Bool
  | .dataset _ => true
  | .group cs => validH5C cs

/-- Validity of a child list. -/
def validH5C : H5Children → Bool
  | .nil => true
  | .cons n o tl => okName n && !tl.hasName n && validH5 o && validH5C tl

end

/-- Python `path.split("/")[-1]`: the characters after the last slash. -/
def lastSeg (cs : Bytes) : Bytes :=
  cs.foldl (fun acc c => if c = '/' then [] else acc ++ [c]) []

/-- The local name of a node from its full path, as
`group.name.split("/")[-1]` computes it (the root path `/` yields the
empty name). -/
def localName (p : String) : String := String.mk (lastSeg p.data)

/-- The full path of a child, as h5py assigns `.name`. -/
def childPath (p n : String) : String :=
  if p = "/" then p ++ n else p ++ "/" ++ n

/-- Fold `dict.update` over a list of one-entry dicts, as the loop
`for _obj in list(group.keys()): dic[_n].update(...)` does. -/
def PyEntries.updateMany (acc : PyEntries) : List (String × PyObj) → PyEntries
  | [] => acc
  | (k, v) :: rest => (acc.updateOne k v).updateMany rest

mutual

/-- `gen_group_dict` of `utils.py`, one node: a dataset maps its local
name to its length, a group maps its local name to the merged dict of
its children.  The source returns the one-entry dict
`\x7bname: value\x7d`; the name-value pair is returned here and
`gen_group_dict` wraps it. -/
def gen_group_entry (p : String) (obj : H5Obj) : String × PyObj :=
  match obj with
  | .dataset n => (localName p, .int n)
  | .group cs => (localName p, .dict (PyEntries.nil.updateMany (genList p cs)))

/-- The name-value pairs of the children, in insertion order (each one
the content of the child's one-entry dict). -/
def genList (p : String) : H5Children → List (String × PyObj)
  | .nil => []
  | .cons n o tl => gen_group_entry (childPath p n) o :: genList p tl

end

/-- `gen_group_dict` of `utils.py`: the one-entry dict for a node. -/
def gen_group_dict (p : String) (obj : H5Obj) : PyObj :=
  .dict (.cons (gen_group_entry p obj).1 (gen_group_entry p obj).2 .nil)

/-- Remove a named child (Python `del group[name]`; h5 names are unique,
the first occurrence is removed). -/
def H5Children.remove : H5Children → String → H5Children
  | .nil, _ => .nil
  | .cons n o tl, m => if n = m then tl else .cons n o (tl.remove m)

/-- The `del group["/AuxiliaryData/ASDFDict"]` step of `dump_dict`, with
its blanket `except: pass`: remove the `ASDFDict` entry of the
`AuxiliaryData` group when both exist, else leave the tree unchanged. -/
def deleteAux : H5Children → H5Children
  | .nil => .nil
  | .cons n o tl =>
    if n = "AuxiliaryData" then
      match o with
      | .group g => .cons n (.group (g.remove "ASDFDict")) tl
      | .dataset l => .cons n (.dataset l) tl
    else .cons n o (deleteAux tl)

/-- `dump_dict` of `utils.py`: delete any previous index blob, render
`str(gen_group_dict(group["/"]))`, and gzip-compress unless compression
is suppressed.  The returned bytes are the created dataset's payload. -/
def dump_dict (root : H5Children) (compress : Bool) : Bytes :=
  let s := reprV (gen_group_dict "/" (.group (deleteAux root)))
  if compress then gzipCompress s else s

/-- `read_asdfdict` of `asdf_data_set.py`: decode the stored blob and
index the decoded mapping at the empty-string key (the root's local
name); any failure raises `CloudASDFValueError`. -/
def read_asdfdict (blob : Bytes) : Option PyObj :=
  match read_dict blob with
  | some d => pyIndex d ""
  | none => none

/-!
## Parser-printer correctness

The decode side evaluates exactly the tree that the encode side
rendered: the recursive-descent parser consumes the repr of any valid
value and returns its literal expression, whose evaluation returns the
value.
-/

theorem takeWhile_append_all {p : Char → Bool} (l : Bytes) (c : Char) (r : Bytes)
    (hl : ∀ x ∈ l, p x = true) (hc : p c = false) :
    (l ++ c :: r).takeWhile p = l := by
  induction l with
  | nil => simp [List.takeWhile, hc]
  | cons a l ih =>
    have ha : p a = true := hl a (List.mem_cons_self a l)
    simp only [List.cons_append, List.takeWhile, ha, List.append_eq]
    rw [ih (fun x hx => hl x (List.mem_cons_of_mem a hx))]

theorem dropWhile_append_all {p : Char → Bool} (l : Bytes) (c : Char) (r : Bytes)
    (hl : ∀ x ∈ l, p x = true) (hc : p c = false) :
    (l ++ c :: r).dropWhile p = c :: r := by
  induction l with
  | nil => simp [List.dropWhile, hc]
  | cons a l ih =>
    have ha : p a = true := hl a (List.mem_cons_self a l)
    simp only [List.cons_append, List.dropWhile, ha, List.append_eq]
    exact ih (fun x hx => hl x (List.mem_cons_of_mem a hx))

/-- Head condition after a parsed value: the next character neither
continues a number nor starts an addition. -/
def afterOk : Bytes → Bool
  | [] => true
  | c :: _ => !(c = '+' || c.isDigit)

theorem afterOk_cons {c : Char} {r : Bytes} (h : afterOk (c :: r) = true) :
    c ≠ '+' ∧ c.isDigit = false := by
  simp [afterOk] at h
  exact ⟨h.1, h.2⟩

theorem parseNat_natChars (n : Nat) (rest : Bytes) (h : afterOk rest = true) :
    parseNat (natChars n ++ rest) = some (n, rest) := by
  have hdig := natChars_all_digits n
  cases rest with
  | nil =>
    simp only [List.append_nil, parseNat]
    rw [List.takeWhile_eq_self_iff.mpr hdig, List.dropWhile_eq_nil_iff.mpr (by
      intro x hx; exact hdig x hx)]
    simp [natOfDigits_natChars, List.isEmpty_iff, natChars_ne_nil n]
  | cons c r =>
    have hc : c.isDigit = false := (afterOk_cons h).2
    simp only [parseNat]
    rw [takeWhile_append_all _ c r hdig hc, dropWhile_append_all _ c r hdig hc]
    simp [natOfDigits_natChars, List.isEmpty_iff, natChars_ne_nil n]

theorem okChar_spec {c : Char} (h : okChar c = true) :
    c ≠ qc ∧ c ≠ bslash ∧ c ≠ '/' ∧ 32 ≤ c.toNat ∧ c.toNat < 127 := by
  simp only [okChar, Bool.and_eq_true, decide_eq_true_eq, bne_iff_ne] at h
  exact ⟨h.1.1.2, h.1.2, h.2, h.1.1.1.1, h.1.1.1.2⟩

theorem okName_chars {s : String} (h : okName s = true) :
    ∀ c ∈ s.data, okChar c = true := by
  simpa [okName, List.all_eq_true] using h

theorem parseStrLit_repr (s : String) (rest : Bytes) (hs : okName s = true) :
    parseStrLit (qc :: (s.data ++ qc :: rest)) = some (s, rest) := by
  have hall : ∀ x ∈ s.data, (fun d => decide (d ≠ qc)) x = true := by
    intro x hx
    simpa using (okChar_spec (okName_chars hs x hx)).1
  have hq : (fun d => decide (d ≠ qc)) qc = false := by simp
  simp only [parseStrLit, if_pos rfl]
  rw [dropWhile_append_all _ qc rest hall hq, takeWhile_append_all _ qc rest hall hq]
  cases s
  rfl

theorem isDigit_ne_lbrace {c : Char} (h : c.isDigit = true) : c ≠ lbrace := by
  intro he; subst he; exact absurd h (by decide)

theorem isDigit_ne_qc {c : Char} (h : c.isDigit = true) : c ≠ qc := by
  intro he; subst he; exact absurd h (by decide)

theorem parseExpr_int (n : Nat) (fuel : Nat) (rest : Bytes)
    (hf : 2 ≤ fuel) (hr : afterOk rest = true) :
    parseExpr fuel (natChars n ++ rest) = some (.intLit n, rest) := by
  obtain ⟨f, rfl⟩ : ∃ f, fuel = f + 1 := ⟨fuel - 1, by omega⟩
  obtain ⟨g, rfl⟩ : ∃ g, f = g + 1 := ⟨f - 1, by omega⟩
  obtain ⟨c, cs, hnc⟩ := List.exists_cons_of_ne_nil (natChars_ne_nil n)
  have hcdig : c.isDigit = true := natChars_all_digits n c (by rw [hnc]; exact List.mem_cons_self c cs)
  have hprim : parsePrim (g + 1) (natChars n ++ rest) = some (.intLit n, rest) := by
    rw [hnc]
    simp only [List.cons_append, parsePrim]
    rw [if_neg (by simpa using isDigit_ne_lbrace hcdig),
      if_neg (by simpa using isDigit_ne_qc hcdig), if_pos hcdig]
    have : parseNat (c :: (cs ++ rest)) = some (n, rest) := by
      have := parseNat_natChars n rest hr
      rw [hnc] at this
      simpa using this
    rw [this]
  simp only [parseExpr]
  rw [hprim]
  cases rest with
  | nil => rfl
  | cons c2 r2 =>
    have hne : c2 ≠ '+' := (afterOk_cons hr).1
    simp [hne]

theorem parseExpr_str (s : String) (fuel : Nat) (rest : Bytes)
    (hf : 2 ≤ fuel) (hs : okName s = true) (hr : afterOk rest = true) :
    parseExpr fuel (qc :: (s.data ++ qc :: rest)) = some (.strLit s, rest) := by
  obtain ⟨f, rfl⟩ : ∃ f, fuel = f + 1 := ⟨fuel - 1, by omega⟩
  obtain ⟨g, rfl⟩ : ∃ g, f = g + 1 := ⟨f - 1, by omega⟩
  have hprim : parsePrim (g + 1) (qc :: (s.data ++ qc :: rest)) =
      some (.strLit s, rest) := by
    simp only [parsePrim]
    rw [if_pos trivial, parseStrLit_repr s rest hs,
      if_neg (show ¬(qc = lbrace) by decide)]
  simp only [parseExpr]
  rw [hprim]
  cases rest with
  | nil => rfl
  | cons c2 r2 =>
    have hne : c2 ≠ '+' := (afterOk_cons hr).1
    simp [hne]

theorem reprEs_cons (k : String) (v : PyObj) (tl : PyEntries) :
    reprEs (.cons k v tl) =
      qc :: (k.data ++ qc :: ':' :: ' ' :: (reprV v ++ reprSep tl)) := by
  simp [reprEs, List.cons_append, List.append_assoc, List.singleton_append,
    List.nil_append]

mutual

/-- The parser consumes the rendering of any valid value and returns its
literal expression, leaving the rest of the input untouched. -/
theorem parse_reprV : ∀ (obj : PyObj) (fuel : Nat) (rest : Bytes),
    costV obj < fuel → afterOk rest = true → pyValidV obj = true →
    parseExpr fuel (reprV obj ++ rest) = some (exprOfV obj, rest)
  | .int n, fuel, rest, hc, hr, _ => by
    have hf : 2 ≤ fuel := by simp [costV] at hc; omega
    simpa [reprV, exprOfV] using parseExpr_int n fuel rest hf hr
  | .str s, fuel, rest, hc, hr, hv => by
    have hf : 2 ≤ fuel := by simp [costV] at hc; omega
    have h := parseExpr_str s fuel rest hf (by simpa [pyValidV] using hv) hr
    simpa [reprV, exprOfV, List.cons_append, List.append_assoc] using h
  | .dict .nil, fuel, rest, hc, hr, _ => by
    have hf : 5 ≤ fuel := by simp [costV, costEs] at hc; omega
    obtain ⟨f, rfl⟩ : ∃ f, fuel = f + 1 := ⟨fuel - 1, by omega⟩
    obtain ⟨g, rfl⟩ : ∃ g, f = g + 1 := ⟨f - 1, by omega⟩
    obtain ⟨h2, rfl⟩ : ∃ h2, g = h2 + 1 := ⟨g - 1, by omega⟩
    have hshape : reprV (.dict .nil) ++ rest = lbrace :: rbrace :: rest := by
      simp [reprV, reprEs]
    rw [hshape]
    have hprim : parsePrim (h2 + 1 + 1) (lbrace :: rbrace :: rest) =
        some (.dictLit .nil, rest) := by
      simp only [parsePrim]
      rw [if_pos (by trivial)]
      simp only [parseDictRest]
      rw [if_pos (by trivial)]
    simp only [parseExpr]
    rw [hprim]
    cases rest with
    | nil => simp [exprOfV, pairsOfEntries]
    | cons c2 r2 =>
      have hne : c2 ≠ '+' := (afterOk_cons hr).1
      simp [hne, exprOfV, pairsOfEntries]
  | .dict (.cons k v tl), fuel, rest, hc, hr, hv => by
    have hc4 : 4 + costEs (.cons k v tl) < fuel := by simpa [costV] using hc
    obtain ⟨f, rfl⟩ : ∃ f, fuel = f + 1 := ⟨fuel - 1, by omega⟩
    obtain ⟨g, rfl⟩ : ∃ g, f = g + 1 := ⟨f - 1, by omega⟩
    obtain ⟨h2, rfl⟩ : ∃ h2, g = h2 + 1 := ⟨g - 1, by omega⟩
    have hpairs : parsePairs h2 (reprEs (.cons k v tl) ++ rbrace :: rest) =
        some (pairsOfEntries (.cons k v tl), rest) :=
      parse_reprEs (.cons k v tl) h2 rest (by intro h; cases h) (by omega) hr
        (by simpa [pyValidV] using hv)
    have hdict : parseDictRest (h2 + 1) (reprEs (.cons k v tl) ++ rbrace :: rest) =
        some (.dictLit (pairsOfEntries (.cons k v tl)), rest) := by
      rw [reprEs_cons k v tl, List.cons_append]
      simp only [parseDictRest]
      rw [if_neg (show ¬(qc = rbrace) by decide), ← List.cons_append,
        ← reprEs_cons k v tl, hpairs]
    have hshape : reprV (.dict (.cons k v tl)) ++ rest =
        lbrace :: (reprEs (.cons k v tl) ++ rbrace :: rest) := by
      simp only [reprV, List.cons_append, List.append_assoc, List.singleton_append,
        List.nil_append]
    rw [hshape]
    have hprim : parsePrim (h2 + 1 + 1) (lbrace ::
        (reprEs (.cons k v tl) ++ rbrace :: rest)) =
        some (.dictLit (pairsOfEntries (.cons k v tl)), rest) := by
      simp only [parsePrim]
      rw [if_pos (by trivial), hdict]
    simp only [parseExpr]
    rw [hprim]
    cases rest with
    | nil => simp [exprOfV]
    | cons c2 r2 =>
      have hne : c2 ≠ '+' := (afterOk_cons hr).1
      simp [hne, exprOfV]

/-- The parser consumes the rendering of any nonempty valid entry list
followed by the closing brace, returning its literal pairs. -/
theorem parse_reprEs : ∀ (es : PyEntries) (fuel : Nat) (rest : Bytes),
    es ≠ .nil → costEs es < fuel → afterOk rest = true → pyValidEs es = true →
    parsePairs fuel (reprEs es ++ rbrace :: rest) = some (pairsOfEntries es, rest)
  | .nil, _, _, hne, _, _, _ => absurd rfl hne
  | .cons k v tl, fuel, rest, _, hc, hr, hv => by
    have hc4 : 4 + costV v + costEs tl < fuel := by simpa [costEs] using hc
    obtain ⟨f, rfl⟩ : ∃ f, fuel = f + 1 := ⟨fuel - 1, by omega⟩
    have hvv : okName k = true ∧ pyValidV v = true ∧ pyValidEs tl = true := by
      simpa [pyValidEs, Bool.and_eq_true, and_assoc] using hv
    have hshape : reprEs (.cons k v tl) ++ rbrace :: rest =
        qc :: (k.data ++ qc :: (':' :: ' ' ::
          (reprV v ++ (reprSep tl ++ rbrace :: rest)))) := by
      simp only [reprEs, List.cons_append, List.append_assoc, List.singleton_append,
        List.nil_append]
    rw [hshape]
    simp only [parsePairs]
    rw [parseExpr_str k f (':' :: ' ' :: (reprV v ++ (reprSep tl ++ rbrace :: rest)))
      (by omega) hvv.1 rfl]
    simp only []
    rw [if_pos (by trivial)]
    have hskip : skipSpace (' ' :: (reprV v ++ (reprSep tl ++ rbrace :: rest))) =
        reprV v ++ (reprSep tl ++ rbrace :: rest) := rfl
    rw [hskip]
    have hafter : afterOk (reprSep tl ++ rbrace :: rest) = true := by
      cases tl with
      | nil => simp [reprSep, afterOk]; decide
      | cons k2 v2 tl2 => simp [reprSep, afterOk]
    rw [parse_reprV v f (reprSep tl ++ rbrace :: rest) (by omega) hafter hvv.2.1]
    simp only []
    cases tl with
    | nil =>
      simp only [reprSep, List.nil_append]
      simp [pairsOfEntries]
      intro h
      exact absurd h (by decide)
    | cons k2 v2 tl2 =>
      simp only [reprSep, List.cons_append]
      rw [if_pos (by trivial)]
      have hskip2 : skipSpace (' ' :: (reprEs (.cons k2 v2 tl2) ++ rbrace :: rest)) =
          reprEs (.cons k2 v2 tl2) ++ rbrace :: rest := rfl
      rw [hskip2]
      rw [parse_reprEs (.cons k2 v2 tl2) f rest (by intro h; cases h) (by omega) hr
        hvv.2.2]
      simp [pairsOfEntries]

end

mutual

/-- Evaluating the literal expression of a value returns the value. -/
theorem pyEval_exprOfV : ∀ obj : PyObj, pyEval (exprOfV obj) = some obj
  | .int n => by simp [exprOfV, pyEval]
  | .str s => by simp [exprOfV, pyEval]
  | .dict es => by
    simp [exprOfV, pyEval, pyEvalPairs_pairsOf es]

/-- Evaluating the literal pairs of an entry list returns the entries. -/
theorem pyEvalPairs_pairsOf : ∀ es : PyEntries,
    pyEvalPairs (pairsOfEntries es) = some es
  | .nil => by simp [pairsOfEntries, pyEvalPairs]
  | .cons k v tl => by
    simp [pairsOfEntries, pyEvalPairs, pyEval, pyEval_exprOfV v,
      pyEvalPairs_pairsOf tl]

end

mutual

/-- The literal expression of a value is a pure literal. -/
theorem isLiteral_exprOfV : ∀ obj : PyObj, isLiteral (exprOfV obj) = true
  | .int _ => by simp [exprOfV, isLiteral]
  | .str _ => by simp [exprOfV, isLiteral]
  | .dict es => by simp [exprOfV, isLiteral, isLiteralPairs_pairsOf es]

/-- The literal pairs of an entry list are pure literals. -/
theorem isLiteralPairs_pairsOf : ∀ es : PyEntries,
    isLiteralPairs (pairsOfEntries es) = true
  | .nil => by simp [pairsOfEntries, isLiteralPairs]
  | .cons k v tl => by
    simp [pairsOfEntries, isLiteralPairs, isLiteral_exprOfV v,
      isLiteralPairs_pairsOf tl]

end

mutual

/-- The parse cost of a value is dominated by its rendered length. -/
theorem costV_le : ∀ obj : PyObj, costV obj ≤ 4 * (reprV obj).length
  | .int n => by
    have := natChars_ne_nil n
    have : 1 ≤ (natChars n).length := by
      cases h : natChars n with
      | nil => exact absurd h (natChars_ne_nil n)
      | cons a l => simp
    simp [costV, reprV]
    omega
  | .str s => by simp [costV, reprV]; omega
  | .dict es => by
    have h := costEs_le es
    simp [costV, reprV]
    omega

/-- The parse cost of entries is dominated by their rendered length. -/
theorem costEs_le : ∀ es : PyEntries, costEs es ≤ 4 * (reprEs es).length + 4
  | .nil => by simp [costEs]
  | .cons k v tl => by
    have hv := costV_le v
    have htl : costEs tl ≤ 4 * (reprSep tl).length + 4 := by
      cases tl with
      | nil => simp [costEs, reprSep]
      | cons k2 v2 tl2 =>
        have := costEs_le (.cons k2 v2 tl2)
        simp [reprSep]
        omega
    simp [costEs, reprEs]
    omega

end

/-- Decoding by evaluation recovers any valid rendered value. -/
theorem pyEvalDecode_repr (obj : PyObj) (hv : pyValidV obj = true) :
    pyEvalDecode (reprV obj) = some obj := by
  have hcost : costV obj < 4 * (reprV obj).length + 5 := by
    have := costV_le obj
    omega
  have hparse := parse_reprV obj (4 * (reprV obj).length + 5) [] hcost rfl hv
  rw [List.append_nil] at hparse
  simp [pyEvalDecode, pyParseExpr, hparse, pyEval_exprOfV obj]

/-- The structured deserializer also recovers any valid rendered
value. -/
theorem kvParse_repr (obj : PyObj) (hv : pyValidV obj = true) :
    kvParse (reprV obj) = some obj := by
  have hcost : costV obj < 4 * (reprV obj).length + 5 := by
    have := costV_le obj
    omega
  have hparse := parse_reprV obj (4 * (reprV obj).length + 5) [] hcost rfl hv
  rw [List.append_nil] at hparse
  simp [kvParse, pyParseExpr, hparse, isLiteral_exprOfV obj, pyEval_exprOfV obj]

/-- Dropping while a predicate fails at the head is the identity. -/
theorem dropWhile_cons_false {p : Char → Bool} {c : Char} {l : Bytes}
    (h : p c = false) : (c :: l).dropWhile p = c :: l := by
  simp [List.dropWhile, h]

/-- Stripping leaves a byte string alone when both ends are not
whitespace. -/
theorem pyStrip_keep (a z : Char) (l : Bytes) (ha : wsByte a = false)
    (hz : wsByte z = false) :
    pyStrip (a :: (l ++ [z])) = a :: (l ++ [z]) := by
  unfold pyStrip
  rw [dropWhile_cons_false ha]
  have hrev : (a :: (l ++ [z])).reverse = z :: (l.reverse ++ [a]) := by simp
  rw [hrev, dropWhile_cons_false hz, ← hrev, List.reverse_reverse]

/-- Decompressing a compressed payload recovers it. -/
theorem gzipDecompress_compress (cs : Bytes) :
    gzipDecompress (gzipCompress cs) = some cs := by
  simp [gzipCompress, gzipDecompress]

/-- Decompression fails on text that starts with an opening brace, so
the fallback keeps an uncompressed rendered dict unchanged. -/
theorem gzipDecompress_lbrace (x : Bytes) : gzipDecompress (lbrace :: x) = none := by
  cases x with
  | nil => rfl
  | cons b r =>
    simp only [gzipDecompress]
    rw [if_neg]
    intro h
    simp only [Bool.and_eq_true, decide_eq_true_eq] at h
    exact absurd h.1 (by decide)

/-!
## Local names and validity of the generated index
-/

theorem foldl_no_slash (n : Bytes) (hn : ∀ c ∈ n, ¬c = '/') :
    ∀ acc : Bytes,
      n.foldl (fun acc c => if c = '/' then [] else acc ++ [c]) acc = acc ++ n := by
  induction n with
  | nil => intro acc; simp
  | cons c n ih =>
    intro acc
    have hc : ¬c = '/' := hn c (List.mem_cons_self c n)
    simp only [List.foldl_cons, if_neg hc]
    rw [ih (fun x hx => hn x (List.mem_cons_of_mem c hx))]
    simp

theorem lastSeg_slash_append (l n : Bytes) (hn : ∀ c ∈ n, ¬c = '/') :
    lastSeg (l ++ '/' :: n) = n := by
  unfold lastSeg
  rw [List.foldl_append]
  simp only [List.foldl_cons]
  rw [if_pos (by trivial), foldl_no_slash n hn []]
  simp

/-- The local name of the root path is the empty string. -/
theorem localName_root : localName "/" = "" := rfl

/-- The local name of a child path is the child's own name, for any
valid (slash-free) name. -/
theorem localName_childPath (p n : String) (hn : okName n = true) :
    localName (childPath p n) = n := by
  have hslash : ∀ c ∈ n.data, ¬c = '/' := fun c hc =>
    (okChar_spec (okName_chars hn c hc)).2.2.1
  by_cases hp : p = "/"
  · subst hp
    have h1 : childPath "/" n = "/" ++ n := by simp [childPath]
    have hdata : (("/" : String) ++ n).data = [] ++ '/' :: n.data := by
      simp [String.data_append]
    rw [h1]
    unfold localName
    rw [hdata, lastSeg_slash_append [] n.data hslash]
  · have h1 : childPath p n = p ++ "/" ++ n := by simp [childPath, hp]
    have hdata : (p ++ "/" ++ n).data = p.data ++ '/' :: n.data := by
      simp [String.data_append]
    rw [h1]
    unfold localName
    rw [hdata, lastSeg_slash_append p.data n.data hslash]

/-- The name side of `gen_group_entry` is always the local name. -/
theorem gen_group_entry_fst (p : String) (obj : H5Obj) :
    (gen_group_entry p obj).1 = localName p := by
  cases obj <;> simp [gen_group_entry]

/-- `updateOne` preserves validity of the entries. -/
theorem updateOne_valid : ∀ (es : PyEntries) (k : String) (v : PyObj),
    pyValidEs es = true → okName k = true → pyValidV v = true →
    pyValidEs (es.updateOne k v) = true
  | .nil, k, v, _, hk, hv => by simp [PyEntries.updateOne, pyValidEs, hk, hv]
  | .cons k0 v0 tl, k, v, he, hk, hv => by
    simp only [pyValidEs, Bool.and_eq_true] at he
    by_cases h : k0 = k
    · simp [PyEntries.updateOne, h, pyValidEs, he.1.1, he.2, hv, hk]
    · simp [PyEntries.updateOne, h, pyValidEs, he.1.1, he.1.2,
        updateOne_valid tl k v he.2 hk hv]

/-- `updateMany` preserves validity when the new pairs are valid. -/
theorem updateMany_valid : ∀ (l : List (String × PyObj)) (acc : PyEntries),
    pyValidEs acc = true →
    (∀ kv ∈ l, okName kv.1 = true ∧ pyValidV kv.2 = true) →
    pyValidEs (acc.updateMany l) = true
  | [], _, ha, _ => ha
  | (k, v) :: rest, acc, ha, hl => by
    simp only [PyEntries.updateMany]
    refine updateMany_valid rest _ ?_ (fun kv hkv => hl kv (List.mem_cons_of_mem _ hkv))
    have h1 := hl (k, v) (List.mem_cons_self _ _)
    exact updateOne_valid acc k v ha h1.1 h1.2

mutual

/-- The value generated for a valid node is repr-faithful. -/
theorem genEntry_valid : ∀ (p : String) (obj : H5Obj), validH5 obj = true →
    pyValidV (gen_group_entry p obj).2 = true
  | _, .dataset _, _ => by simp [gen_group_entry, pyValidV]
  | p, .group cs, hv => by
    simp only [gen_group_entry, pyValidV]
    exact updateMany_valid (genList p cs) .nil (by simp [pyValidEs])
      (genList_valid p cs (by simpa [validH5] using hv))

/-- The generated pairs of valid children are valid. -/
theorem genList_valid : ∀ (p : String) (cs : H5Children), validH5C cs = true →
    ∀ kv ∈ genList p cs, okName kv.1 = true ∧ pyValidV kv.2 = true
  | _, .nil, _ => by intro kv hkv; simp [genList] at hkv
  | p, .cons n o tl, hv => by
    intro kv hkv
    have hv' : okName n = true ∧ validH5 o = true ∧ validH5C tl = true := by
      simp only [validH5C, Bool.and_eq_true] at hv
      exact ⟨hv.1.1.1, hv.1.2, hv.2⟩
    simp only [genList, List.mem_cons] at hkv
    rcases hkv with rfl | hkv
    · refine ⟨?_, genEntry_valid _ o hv'.2.1⟩
      rw [gen_group_entry_fst, localName_childPath p n hv'.1]
      exact hv'.1
    · exact genList_valid p tl hv'.2.2 kv hkv

end

/-- The whole generated index dict is repr-faithful for a valid tree
rooted at `/`. -/
theorem gen_group_dict_valid (cs : H5Children) (hv : validH5C cs = true) :
    pyValidV (gen_group_dict "/" (.group cs)) = true := by
  have h1 : okName (gen_group_entry "/" (.group cs)).1 = true := by
    rw [gen_group_entry_fst, localName_root]; rfl
  have h2 := genEntry_valid "/" (.group cs) (by simpa [validH5] using hv)
  have h3 : pyValidV (gen_group_dict "/" (.group cs)) =
      (okName (gen_group_entry "/" (.group cs)).1 &&
        pyValidV (gen_group_entry "/" (.group cs)).2 && true) := by
    simp only [gen_group_dict, pyValidV, pyValidEs]
  rw [h3, h1, h2]
  rfl

/-- A name found after a removal was present before it. -/
theorem hasName_remove_imp : ∀ (cs : H5Children) (m n : String),
    (cs.remove m).hasName n = true → cs.hasName n = true
  | .nil, m, n, h => by simpa [H5Children.remove] using h
  | .cons n2 o tl, m, n, h => by
    by_cases h2 : n2 = m
    · simp only [H5Children.remove, if_pos h2] at h
      simp [H5Children.hasName, h]
    · simp only [H5Children.remove, if_neg h2] at h
      simp only [H5Children.hasName, Bool.or_eq_true] at h ⊢
      rcases h with h | h
      · exact Or.inl h
      · exact Or.inr (hasName_remove_imp tl m n h)

/-- `deleteAux` keeps the set of child names unchanged. -/
theorem hasName_deleteAux : ∀ (cs : H5Children) (n : String),
    (deleteAux cs).hasName n = cs.hasName n
  | .nil, _ => by simp [deleteAux]
  | .cons n2 o tl, n => by
    by_cases h2 : n2 = "AuxiliaryData"
    · cases o <;> simp [deleteAux, h2, H5Children.hasName]
    · simp [deleteAux, h2, H5Children.hasName, hasName_deleteAux tl n]

/-- Validity survives removing a child. -/
theorem validH5C_remove : ∀ (cs : H5Children) (m : String),
    validH5C cs = true → validH5C (cs.remove m) = true
  | .nil, m, hv => by simpa [H5Children.remove] using hv
  | .cons n o tl, m, hv => by
    simp only [validH5C, Bool.and_eq_true] at hv
    by_cases h : n = m
    · simp [H5Children.remove, h, hv.2]
    · have hname : (tl.remove m).hasName n = false := by
        cases hx : (tl.remove m).hasName n
        · rfl
        · have hmem := hasName_remove_imp tl m n hx
          have := hv.1.1.2
          rw [hmem] at this
          simp at this
      simp [H5Children.remove, h, validH5C, hv.1.1.1, hv.1.2,
        validH5C_remove tl m hv.2, hname]

/-- Validity survives the `deleteAux` step of `dump_dict`. -/
theorem validH5C_deleteAux : ∀ (cs : H5Children),
    validH5C cs = true → validH5C (deleteAux cs) = true
  | .nil, hv => by simpa [deleteAux] using hv
  | .cons n o tl, hv => by
    simp only [validH5C, Bool.and_eq_true] at hv
    have hno : tl.hasName n = false := by
      have := hv.1.1.2
      cases hx : tl.hasName n
      · rfl
      · rw [hx] at this; simp at this
    by_cases h : n = "AuxiliaryData"
    · subst h
      cases o with
      | dataset l =>
        simp [deleteAux, validH5C, hv.1.1.1, hno, hv.1.2, hv.2]
      | group g =>
        have hg : validH5 (.group (g.remove "ASDFDict")) = true := by
          simp only [validH5]
          exact validH5C_remove g "ASDFDict" (by simpa [validH5] using hv.1.2)
        simp [deleteAux, validH5C, hv.1.1.1, hno, hg, hv.2]
    · have hname : (deleteAux tl).hasName n = false := by
        rw [hasName_deleteAux tl n]
        exact hno
      simp [deleteAux, h, validH5C, hv.1.1.1, hv.1.2,
        validH5C_deleteAux tl hv.2, hname]

/-!
## Round trip of the stored index
-/

/-- The rendered index dict, stripped and decompress-fallback-processed
from its compressed or plain stored form, decodes back to the generated
tree. -/
theorem read_dict_dump_dict (root : H5Children) (compress : Bool)
    (hv : validH5C root = true) :
    read_dict (dump_dict root compress) =
      some (gen_group_dict "/" (.group (deleteAux root))) := by
  have hval : pyValidV (gen_group_dict "/" (.group (deleteAux root))) = true :=
    gen_group_dict_valid (deleteAux root) (validH5C_deleteAux root hv)
  have hshape : reprV (gen_group_dict "/" (.group (deleteAux root))) =
      lbrace :: ((reprEs (.cons (gen_group_entry "/"
        (.group (deleteAux root))).1 (gen_group_entry "/"
        (.group (deleteAux root))).2 .nil)) ++ [rbrace]) := by
    simp [gen_group_dict, reprV]
  cases compress with
  | false =>
    unfold read_dict dump_dict read_string_array
    simp only [if_neg (by simp : ¬(false = true))]
    rw [hshape, pyStrip_keep lbrace rbrace _ (by decide) (by decide)]
    unfold decompressFallback
    rw [gzipDecompress_lbrace]
    rw [← hshape]
    exact pyEvalDecode_repr _ hval
  | true =>
    unfold read_dict dump_dict read_string_array
    rw [if_pos (by trivial)]
    unfold gzipCompress
    rw [hshape]
    have hstrip : pyStrip (gzByte1 :: gzByte2 :: lbrace :: ((reprEs
        (.cons (gen_group_entry "/" (.group (deleteAux root))).1
          (gen_group_entry "/" (.group (deleteAux root))).2 .nil)) ++ [rbrace])) =
        gzByte1 :: gzByte2 :: lbrace :: ((reprEs
        (.cons (gen_group_entry "/" (.group (deleteAux root))).1
          (gen_group_entry "/" (.group (deleteAux root))).2 .nil)) ++ [rbrace]) := by
      have := pyStrip_keep gzByte1 rbrace (gzByte2 :: lbrace :: reprEs
        (.cons (gen_group_entry "/" (.group (deleteAux root))).1
          (gen_group_entry "/" (.group (deleteAux root))).2 .nil))
        (by decide) (by decide)
      simpa [List.cons_append, List.append_assoc] using this
    rw [hstrip]
    unfold decompressFallback
    have hgz : gzipDecompress (gzByte1 :: gzByte2 :: lbrace :: ((reprEs
        (.cons (gen_group_entry "/" (.group (deleteAux root))).1
          (gen_group_entry "/" (.group (deleteAux root))).2 .nil)) ++ [rbrace])) =
        some (lbrace :: ((reprEs
        (.cons (gen_group_entry "/" (.group (deleteAux root))).1
          (gen_group_entry "/" (.group (deleteAux root))).2 .nil)) ++ [rbrace])) := by
      simp [gzipDecompress]
    rw [hgz, ← hshape]
    exact pyEvalDecode_repr _ hval

/-- Whatever the structured deserializer accepts, the eval-based decode
accepts with the same result. -/
theorem kvParse_decode : ∀ (cs : Bytes) (v : PyObj),
    kvParse cs = some v → pyEvalDecode cs = some v := by
  intro cs v h
  unfold kvParse at h
  unfold pyEvalDecode
  cases hp : pyParseExpr cs with
  | none => rw [hp] at h; simp at h
  | some e =>
    rw [hp] at h
    simp only [] at h ⊢
    by_cases hl : isLiteral e = true
    · rwa [if_pos hl] at h
    · rw [if_neg hl] at h; simp at h

/-!
## Claim theorems: the index codec
-/

/-- C1: corrected.  The claim states that `read_dict`/`readp_dict`
decode with a structured deserializer and never evaluate the stored
text as executable code.  The source decodes with the Python `eval`
built-in.  Amended statement proved here: the eval-based decode agrees
with the structured key-value deserializer wherever the latter
succeeds (in particular on every canonical rendered index), but it is
strictly more permissive (see the counterexample, which `eval`
computes and the canonical grammar rejects). -/
theorem claim_C1_eval_decode_extends_structured_parse (bs : Bytes) (v obj : PyObj)
    (h : kvParse (decompressFallback (read_string_array bs)) = some v)
    (hobj : pyValidV obj = true) :
    read_dict bs = some v ∧ kvParse (reprV obj) = some obj :=
  ⟨kvParse_decode _ v h, kvParse_repr obj hobj⟩

/-- C1: witness for the amended theorem at the stored text `7` and the
value `int 7`. -/
theorem claim_C1_witness :
    kvParse (decompressFallback (read_string_array ("7".data))) =
        some (.int 7) ∧
      pyValidV (.int 7) = true ∧
      (read_dict ("7".data) = some (.int 7) ∧
        kvParse (reprV (.int 7)) = some (.int 7)) :=
  ⟨rfl, rfl, claim_C1_eval_decode_extends_structured_parse ("7".data)
    (.int 7) (.int 7) rfl rfl⟩

/-- C1: counterexample to the claim as stated.  The stored payload
`1+1` is not a canonical key-value encoding (the structured
deserializer rejects it), yet `read_dict` accepts it and returns the
computed value 2: decoding evaluates the stored text as code. -/
theorem claim_C1_counterexample :
    read_dict ("1+1".data) = some (.int 2) ∧ kvParse ("1+1".data) = none :=
  ⟨rfl, rfl⟩

/-- C2: confirmed.  For every container hierarchy (valid names, unique
siblings) and either compression setting, decoding the blob written by
`dump_dict` with `read_dict` yields exactly the tree that
`gen_group_dict` built from the hierarchy: same names, kinds, lengths
and child lists. -/
theorem claim_C2_index_roundtrip (root : H5Children) (compress : Bool)
    (hv : validH5C root = true) :
    read_dict (dump_dict root compress) =
      some (gen_group_dict "/" (.group (deleteAux root))) :=
  read_dict_dump_dict root compress hv

/-- C2: witness on a two-level hierarchy with compression on. -/
theorem claim_C2_witness :
    validH5C (H5Children.cons "W"
        (.group (.cons "s" (.dataset 3) .nil)) .nil) = true ∧
      read_dict (dump_dict (H5Children.cons "W"
        (.group (.cons "s" (.dataset 3) .nil)) .nil) true) =
        some (gen_group_dict "/" (.group (deleteAux (H5Children.cons "W"
          (.group (.cons "s" (.dataset 3) .nil)) .nil)))) :=
  ⟨by decide, claim_C2_index_roundtrip _ true (by decide)⟩

/-- C10: confirmed.  The index tree stores the root node under the
empty-string name (the local name of `/` after splitting on `/`), and
`read_asdfdict` indexes the decoded mapping at that empty key: the
ASDFDict of a constructed Catalog is exactly the value stored under
the root key. -/
theorem claim_C10_root_under_empty_key (root : H5Children) (compress : Bool)
    (hv : validH5C root = true) :
    localName "/" = "" ∧
    gen_group_dict "/" (.group (deleteAux root)) =
      .dict (.cons "" (gen_group_entry "/" (.group (deleteAux root))).2 .nil) ∧
    read_asdfdict (dump_dict root compress) =
      some (gen_group_entry "/" (.group (deleteAux root))).2 := by
  have hfst : (gen_group_entry "/" (.group (deleteAux root))).1 = "" := by
    rw [gen_group_entry_fst, localName_root]
  refine ⟨localName_root, ?_, ?_⟩
  · unfold gen_group_dict
    rw [hfst]
  · unfold read_asdfdict
    rw [read_dict_dump_dict root compress hv]
    simp only []
    simp [gen_group_dict, pyIndex, PyEntries.lookup, hfst]

/-- C10: witness on a two-level hierarchy, uncompressed. -/
theorem claim_C10_witness :
    validH5C (H5Children.cons "W"
        (.group (.cons "s" (.dataset 3) .nil)) .nil) = true ∧
      read_asdfdict (dump_dict (H5Children.cons "W"
        (.group (.cons "s" (.dataset 3) .nil)) .nil) false) =
        some (gen_group_entry "/" (.group (deleteAux (H5Children.cons "W"
          (.group (.cons "s" (.dataset 3) .nil)) .nil)))).2 :=
  ⟨by decide, (claim_C10_root_under_empty_key _ false (by decide)).2.2⟩

/-!
## Name splitting (Python `str.split`)

`parse_trace` splits leaf names on the two-character separator `__` and
the code on `.`; `read_trace` splits the full dataset path the same
way.  Both Python splits are modelled directly (non-overlapping,
left-to-right, keeping empty segments).
-/

/-- Python `s.split(sep)` for a one-character separator. -/
def splitOnChar (sep : Char) : Bytes → List Bytes
  | [] => [[]]
  | c :: rest =>
    if c = sep then [] :: splitOnChar sep rest
    else
      match splitOnChar sep rest with
      | [] => [[c]]
      | s :: ss => (c :: s) :: ss

/-- Python `s.split("__")`: split on two consecutive underscores,
non-overlapping, left to right. -/
def splitOn2 : Bytes → List Bytes
  | [] => [[]]
  | [c] => [[c]]
  | a :: b :: rest =>
    if a = '_' ∧ b = '_' then [] :: splitOn2 rest
    else
      match splitOn2 (b :: rest) with
      | [] => [[a]]
      | s :: ss => (a :: s) :: ss

/-- A byte string with no two consecutive underscores. -/
def noDUS : Bytes → Bool
  | [] => true
  | [_] => true
  | a :: b :: rest => !(a = '_' && b = '_') && noDUS (b :: rest)

/-- A string free of a given character. -/
def noChar (c : Char) (s : String) : Bool := s.data.all (fun d => !(d = c))

theorem splitOn2_append : ∀ (x y : Bytes), (∀ c ∈ x, ¬c = '_') →
    splitOn2 (x ++ '_' :: '_' :: y) = x :: splitOn2 y
  | [], y, _ => by
    simp only [List.nil_append, splitOn2]
    rw [if_pos (by trivial)]
  | [a], y, hx => by
    have ha : ¬a = '_' := hx a (by simp)
    simp only [List.cons_append, List.nil_append, splitOn2, List.append_eq]
    rw [if_neg (by intro h; exact ha h.1)]
    rw [if_pos (by trivial)]
  | a :: b :: x', y, hx => by
    have ha : ¬a = '_' := hx a (by simp)
    simp only [List.cons_append, splitOn2, List.append_eq]
    rw [if_neg (by intro h; exact ha h.1)]
    rw [← List.cons_append]
    rw [splitOn2_append (b :: x') y
      (fun c hc => hx c (List.mem_cons_of_mem a hc))]

theorem splitOn2_noDUS : ∀ (x : Bytes), noDUS x = true → splitOn2 x = [x]
  | [], _ => rfl
  | [c], _ => rfl
  | a :: b :: rest, h => by
    simp only [noDUS, Bool.and_eq_true, Bool.not_eq_true'] at h
    have hcond : ¬(a = '_' ∧ b = '_') := by
      intro hc
      rw [hc.1, hc.2] at h
      simpa using h.1
    simp only [splitOn2]
    rw [if_neg hcond, splitOn2_noDUS (b :: rest) h.2]

theorem splitOnChar_append (sep : Char) : ∀ (x y : Bytes), (∀ c ∈ x, ¬c = sep) →
    splitOnChar sep (x ++ sep :: y) = x :: splitOnChar sep y
  | [], y, _ => by
    simp only [List.nil_append, splitOnChar]
    rw [if_pos (by trivial)]
  | a :: x', y, hx => by
    have ha : ¬a = sep := hx a (by simp)
    simp only [List.cons_append, splitOnChar, List.append_eq]
    rw [if_neg ha, splitOnChar_append sep x' y
      (fun c hc => hx c (List.mem_cons_of_mem a hc))]

theorem splitOnChar_none (sep : Char) : ∀ (x : Bytes), (∀ c ∈ x, ¬c = sep) →
    splitOnChar sep x = [x]
  | [], _ => rfl
  | a :: x', hx => by
    have ha : ¬a = sep := hx a (by simp)
    simp only [splitOnChar]
    rw [if_neg ha, splitOnChar_none sep x'
      (fun c hc => hx c (List.mem_cons_of_mem a hc))]

/-!
## Timestamps: the `strptime` model

`parse_trace` tries `datetime.strptime(s[:26], "%Y-%m-%dT%H:%M:%S.%f")`
for both timestamps and, on any failure, falls back to parsing both
with `"%Y-%m-%dT%H:%M:%S"`; `read_trace` uses only the second format.
Each directive matches one to its field-width many digits (as the
strptime regexes do, `%f` one to six) and the resulting fields are
range-checked as the datetime constructor does.
-/

/-- A parsed timestamp: date, time of day and microseconds. -/
structure TS where
  y : Nat
  mo : Nat
  d : Nat
  h : Nat
  mi : Nat
  s : Nat
  u : Nat
deriving DecidableEq

/-- Gregorian leap year. -/
def leapYear (y : Nat) : Bool := (y % 4 = 0 && y % 100 != 0) || y % 400 = 0

/-- Days in a month. -/
def daysInMonth (y m : Nat) : Nat :=
  if m = 2 then (if leapYear y then 29 else 28)
  else if m = 4 || m = 6 || m = 9 || m = 11 then 30
  else 31

/-- The range checks the `datetime` constructor performs. -/
def validTS (t : TS) : Bool :=
  1 ≤ t.y && t.y ≤ 9999 && 1 ≤ t.mo && t.mo ≤ 12 && 1 ≤ t.d &&
    t.d ≤ daysInMonth t.y t.mo && t.h ≤ 23 && t.mi ≤ 59 && t.s ≤ 59 &&
    t.u ≤ 999999

/-- Read one to `cap` digits (greedy, as the strptime regexes match
fixed-width numeric directives). -/
def readDigitsUpTo (cap : Nat) (cs : Bytes) : Option (Nat × Bytes) :=
  let ds := cs.takeWhile Char.isDigit
  if 1 ≤ ds.length ∧ ds.length ≤ cap then
    some (natOfDigits ds, cs.dropWhile Char.isDigit)
  else none

/-- Consume one expected literal character. -/
def expectChar (c : Char) : Bytes → Option Bytes
  | [] => none
  | a :: r => if a = c then some r else none

/-- Parse the common `%Y-%m-%dT%H:%M:%S` prefix, returning the six
fields and the unconsumed input. -/
def parseTSCore (cs : Bytes) : Option ((Nat × Nat × Nat × Nat × Nat × Nat) × Bytes) :=
  (readDigitsUpTo 4 cs).bind fun (y, r1) =>
  (expectChar '-' r1).bind fun r2 =>
  (readDigitsUpTo 2 r2).bind fun (mo, r3) =>
  (expectChar '-' r3).bind fun r4 =>
  (readDigitsUpTo 2 r4).bind fun (d, r5) =>
  (expectChar 'T' r5).bind fun r6 =>
  (readDigitsUpTo 2 r6).bind fun (h, r7) =>
  (expectChar ':' r7).bind fun r8 =>
  (readDigitsUpTo 2 r8).bind fun (mi, r9) =>
  (expectChar ':' r9).bind fun r10 =>
  (readDigitsUpTo 2 r10).map fun (s, r11) => ((y, mo, d, h, mi, s), r11)

/-- `strptime` with the whole-second format: the whole input must be
consumed and the fields must be in range. -/
def parseTSwhole (cs : Bytes) : Option TS :=
  match parseTSCore cs with
  | some ((y, mo, d, h, mi, s), []) =>
    let t : TS := ⟨y, mo, d, h, mi, s, 0⟩
    if validTS t then some t else none
  | _ => none

/-- `strptime` with the fractional format: a dot and one to six
fraction digits follow the seconds, scaled to microseconds as `%f`
scales them. -/
def parseTSfrac (cs : Bytes) : Option TS :=
  match parseTSCore cs with
  | some ((y, mo, d, h, mi, s), rest) =>
    match expectChar '.' rest with
    | some r1 =>
      let ds := r1.takeWhile Char.isDigit
      if 1 ≤ ds.length ∧ ds.length ≤ 6 ∧ r1.dropWhile Char.isDigit = [] then
        let t : TS := ⟨y, mo, d, h, mi, s, natOfDigits ds * 10 ^ (6 - ds.length)⟩
        if validTS t then some t else none
      else none
    | none => none
  | _ => none

/-- The joint timestamp step of `parse_trace`: try the fractional form
on the first 26 characters of both fields; on any failure re-parse both
with the whole-second form. -/
def parse_times (st en : Bytes) : Option (TS × TS) :=
  match parseTSfrac (st.take 26), parseTSfrac (en.take 26) with
  | some s, some e => some (s, e)
  | _, _ =>
    match parseTSwhole st, parseTSwhole en with
    | some s, some e => some (s, e)
    | _, _ => none

/-- Days from the civil epoch 1970-01-01 (the standard civil-calendar
algorithm; what `datetime` subtraction counts). -/
def daysFromCivil (y m d : Int) : Int :=
  let y2 := if m ≤ 2 then y - 1 else y
  let era := (if 0 ≤ y2 then y2 else y2 - 399) / 400
  let yoe := y2 - era * 400
  let mp := (m + 9) % 12
  let doy := (153 * mp + 2) / 5 + d - 1
  let doe := yoe * 365 + yoe / 4 - yoe / 100 + doy
  era * 146097 + doe - 719468

/-- The exact difference `end - start` in whole microseconds, as the
integer content of the Python `timedelta`. -/
def deltaMicros (a b : TS) : Int :=
  (daysFromCivil b.y b.mo b.d - daysFromCivil a.y a.mo a.d) * 86400000000 +
    ((b.h * 3600 + b.mi * 60 + b.s : Int) - (a.h * 3600 + a.mi * 60 + a.s : Int))
      * 1000000 +
    ((b.u : Int) - (a.u : Int))

/-!
## `parse_trace` and `read_trace`

`timedelta.total_seconds()` computes the exact integer microsecond
content divided by 10^6, and float division of `len(data) - 1` by it
raises `ZeroDivisionError` exactly when that content is zero; the
derived sampling rate is kept as an exact rational.
-/

/-- The typed record `parse_trace` builds on an `obspy.Trace`. -/
structure TraceRec where
  network : String
  station : String
  location : String
  channel : String
  tag : String
  starttime : TS
  sampling_rate : ℚ
deriving DecidableEq

/-- The typed record `read_trace` builds (it sets no tag). -/
structure ReadTraceRec where
  network : String
  station : String
  location : String
  channel : String
  starttime : TS
  sampling_rate : ℚ
deriving DecidableEq

/-- `parse_trace` of `utils.py`: split the leaf name on `__` into
exactly four fields and the code on `.` into exactly four subfields,
parse both timestamps (fractional first with truncation to 26
characters, else both whole-second), and derive the sampling rate
`(len(data) - 1) / delta`; the channel subfield is stored unmodified. -/
def parse_trace (dname : String) (dataLen : Nat) : Option TraceRec :=
  match splitOn2 dname.data with
  | [code, st, en, tag] =>
    match splitOnChar '.' code with
    | [net, sta, loc, cha] =>
      match parse_times st en with
      | some (s, e) =>
        let dm := deltaMicros s e
        if dm = 0 then none
        else some ⟨String.mk net, String.mk sta, String.mk loc, String.mk cha,
          String.mk tag, s, ((dataLen : ℚ) - 1) * 1000000 / (dm : ℚ)⟩
      | none => none
    | _ => none
  | _ => none

/-- `read_trace` of `asdf_data_set.py`: split the full dataset path on
`/` for the leaf name and on `__` for the timestamps (whole-second
format only), split the leaf name on `.`, and store the fourth
dot-segment truncated to three characters as the channel. -/
def read_trace (dataset : String) (dataLen : Nat) : Option ReadTraceRec :=
  let j := lastSeg dataset.data
  let i := splitOnChar '.' j
  let parts := splitOn2 dataset.data
  match parts with
  | _ :: st :: en :: _ =>
    match parseTSwhole st, parseTSwhole en with
    | some s, some e =>
      let dm := deltaMicros s e
      if dm = 0 then none
      else
        match i with
        | net :: sta :: loc :: cha :: _ =>
          some ⟨String.mk net, String.mk sta, String.mk loc,
            String.mk (cha.take 3), s, ((dataLen : ℚ) - 1) * 1000000 / (dm : ℚ)⟩
        | _ => none
    | _, _ => none
  | _ => none

/-!
## Claim theorem: the worked parsing example
-/

/-- C3: confirmed.  Parsing the example leaf name yields
network `UW`, station `OSD`, empty location, channel `EHZ`, tag
`raw_recording`, start time 2021-01-01T00:00:00, and for 60001 samples
the derived sampling rate is exactly 100 Hz. -/
theorem claim_C3_parse_trace_example :
    (parse_trace
      "UW.OSD..EHZ__2021-01-01T00:00:00__2021-01-01T00:10:00__raw_recording"
      60001).map
        (fun r => (r.network, r.station, r.location, r.channel, r.tag)) =
      some ("UW", "OSD", "", "EHZ", "raw_recording") ∧
    (parse_trace
      "UW.OSD..EHZ__2021-01-01T00:00:00__2021-01-01T00:10:00__raw_recording"
      60001).map TraceRec.starttime = some ⟨2021, 1, 1, 0, 0, 0, 0⟩ ∧
    (parse_trace
      "UW.OSD..EHZ__2021-01-01T00:00:00__2021-01-01T00:10:00__raw_recording"
      60001).map TraceRec.sampling_rate = some 100 := by
  refine ⟨rfl, rfl, ?_⟩
  have h : (parse_trace
      "UW.OSD..EHZ__2021-01-01T00:00:00__2021-01-01T00:10:00__raw_recording"
      60001).map TraceRec.sampling_rate =
      some ((((60001 : ℕ) : ℚ) - 1) * 1000000 / (((600000000 : ℤ)) : ℚ)) := rfl
  have h2 : ((((60001 : ℕ) : ℚ)) - 1) * 1000000 / (((600000000 : ℤ)) : ℚ) =
      (100 : ℚ) := by
    push_cast
    norm_num
  rw [h, h2]

/-!
## Rendered timestamps and what the two parsers accept
-/

/-- Zero-padded fixed-width decimal rendering. -/
def padDigits (k n : Nat) : Bytes :=
  List.replicate (k - (natChars n).length) '0' ++ natChars n

/-- The canonical `%Y-%m-%dT%H:%M:%S` rendering of a timestamp. -/
def renderWhole (t : TS) : Bytes :=
  padDigits 4 t.y ++ '-' :: padDigits 2 t.mo ++ '-' :: padDigits 2 t.d ++
    'T' :: padDigits 2 t.h ++ ':' :: padDigits 2 t.mi ++ ':' :: padDigits 2 t.s

/-- The canonical `%Y-%m-%dT%H:%M:%S.ffffff` rendering. -/
def renderFrac (t : TS) : Bytes := renderWhole t ++ '.' :: padDigits 6 t.u

/-- Head of the input is not a digit (or the input is empty). -/
def headNotDigit : Bytes → Bool
  | [] => true
  | c :: _ => !c.isDigit

theorem natOfDigits_replicate_zero (k : Nat) (ds : Bytes) :
    natOfDigits (List.replicate k '0' ++ ds) = natOfDigits ds := by
  induction k with
  | zero => simp
  | succ k ih =>
    have : List.replicate (k + 1) '0' ++ ds = '0' :: (List.replicate k '0' ++ ds) := by
      simp [List.replicate_succ]
    rw [this]
    unfold natOfDigits at ih ⊢
    simpa using ih

theorem padDigits_all_digits (k n : Nat) :
    ∀ c ∈ padDigits k n, c.isDigit = true := by
  intro c hc
  unfold padDigits at hc
  rcases List.mem_append.mp hc with hc | hc
  · rw [List.eq_of_mem_replicate hc]
    decide
  · exact natChars_all_digits n c hc

theorem padDigits_length (k n : Nat) (h : (natChars n).length ≤ k) :
    (padDigits k n).length = k := by
  unfold padDigits
  simp
  omega

theorem natOfDigits_padDigits (k n : Nat) :
    natOfDigits (padDigits k n) = n := by
  unfold padDigits
  rw [natOfDigits_replicate_zero, natOfDigits_natChars]

theorem readDigitsUpTo_pad (cap k n : Nat) (rest : Bytes)
    (hk : (natChars n).length ≤ k) (hk1 : 1 ≤ k) (hkcap : k ≤ cap)
    (hrest : headNotDigit rest = true) :
    readDigitsUpTo cap (padDigits k n ++ rest) = some (n, rest) := by
  have hdig := padDigits_all_digits k n
  have hlen := padDigits_length k n hk
  have htake : (padDigits k n ++ rest).takeWhile Char.isDigit = padDigits k n ∧
      (padDigits k n ++ rest).dropWhile Char.isDigit = rest := by
    cases rest with
    | nil =>
      constructor
      · rw [List.append_nil, List.takeWhile_eq_self_iff.mpr hdig]
      · rw [List.append_nil, List.dropWhile_eq_nil_iff.mpr (fun x hx => hdig x hx)]
    | cons c r =>
      have hc : c.isDigit = false := by
        simp only [headNotDigit, Bool.not_eq_true'] at hrest
        exact hrest
      exact ⟨takeWhile_append_all _ c r hdig hc,
        dropWhile_append_all _ c r hdig hc⟩
  unfold readDigitsUpTo
  simp only [htake.1, htake.2]
  rw [if_pos (by rw [hlen]; exact ⟨hk1, hkcap⟩), natOfDigits_padDigits]

theorem expectChar_cons (c : Char) (r : Bytes) : expectChar c (c :: r) = some r := by
  simp [expectChar]

theorem daysInMonth_le (y m : Nat) : daysInMonth y m ≤ 31 := by
  unfold daysInMonth
  split
  · split <;> omega
  · split <;> omega

theorem validTS_fields {t : TS} (h : validTS t = true) :
    t.y ≤ 9999 ∧ t.mo ≤ 12 ∧ t.d ≤ 31 ∧ t.h ≤ 23 ∧ t.mi ≤ 59 ∧ t.s ≤ 59 ∧
      t.u ≤ 999999 := by
  unfold validTS at h
  simp only [Bool.and_eq_true, decide_eq_true_eq] at h
  have hd31 := daysInMonth_le t.y t.mo
  refine ⟨?_, ?_, ?_, ?_, ?_, ?_, ?_⟩ <;> omega

theorem natChars_len2 {n : Nat} (h : n ≤ 99) : (natChars n).length ≤ 2 :=
  natChars_length_le 2 n (by norm_num; omega) (by norm_num)

theorem natChars_len4 {n : Nat} (h : n ≤ 9999) : (natChars n).length ≤ 4 :=
  natChars_length_le 4 n (by norm_num; omega) (by norm_num)

theorem natChars_len6 {n : Nat} (h : n ≤ 999999) : (natChars n).length ≤ 6 :=
  natChars_length_le 6 n (by norm_num; omega) (by norm_num)

theorem renderWhole_shape (t : TS) (rest : Bytes) :
    renderWhole t ++ rest =
      padDigits 4 t.y ++ '-' :: (padDigits 2 t.mo ++ '-' :: (padDigits 2 t.d ++
        'T' :: (padDigits 2 t.h ++ ':' :: (padDigits 2 t.mi ++ ':' ::
          (padDigits 2 t.s ++ rest))))) := by
  unfold renderWhole
  simp [List.append_assoc, List.cons_append]

theorem parseTSCore_render (t : TS) (rest : Bytes) (hv : validTS t = true)
    (hrest : headNotDigit rest = true) :
    parseTSCore (renderWhole t ++ rest) =
      some ((t.y, t.mo, t.d, t.h, t.mi, t.s), rest) := by
  obtain ⟨hy, hmo, hd, hh, hmi, hs, _⟩ := validTS_fields hv
  rw [renderWhole_shape]
  unfold parseTSCore
  rw [readDigitsUpTo_pad 4 4 t.y _ (natChars_len4 hy) (by omega) (by omega)
    (by rfl)]
  simp only [Option.some_bind]
  rw [expectChar_cons]
  simp only [Option.some_bind]
  rw [readDigitsUpTo_pad 2 2 t.mo _ (natChars_len2 (by omega)) (by omega)
    (by omega) (by rfl)]
  simp only [Option.some_bind]
  rw [expectChar_cons]
  simp only [Option.some_bind]
  rw [readDigitsUpTo_pad 2 2 t.d _ (natChars_len2 (by omega)) (by omega)
    (by omega) (by rfl)]
  simp only [Option.some_bind]
  rw [expectChar_cons]
  simp only [Option.some_bind]
  rw [readDigitsUpTo_pad 2 2 t.h _ (natChars_len2 (by omega)) (by omega)
    (by omega) (by rfl)]
  simp only [Option.some_bind]
  rw [expectChar_cons]
  simp only [Option.some_bind]
  rw [readDigitsUpTo_pad 2 2 t.mi _ (natChars_len2 (by omega)) (by omega)
    (by omega) (by rfl)]
  simp only [Option.some_bind]
  rw [expectChar_cons]
  simp only [Option.some_bind]
  rw [readDigitsUpTo_pad 2 2 t.s _ (natChars_len2 (by omega)) (by omega)
    (by omega) hrest]
  rfl

theorem parseTSCore_render_nil (t : TS) (hv : validTS t = true) :
    parseTSCore (renderWhole t) = some ((t.y, t.mo, t.d, t.h, t.mi, t.s), []) := by
  have h := parseTSCore_render t [] hv rfl
  rwa [List.append_nil] at h

theorem ts_eta (t : TS) (h0 : t.u = 0) :
    (⟨t.y, t.mo, t.d, t.h, t.mi, t.s, 0⟩ : TS) = t := by
  cases t with
  | mk y mo d h mi s u =>
    simp only at h0
    rw [h0]

theorem parseTSwhole_render (t : TS) (hv : validTS t = true) (h0 : t.u = 0) :
    parseTSwhole (renderWhole t) = some t := by
  unfold parseTSwhole
  rw [parseTSCore_render_nil t hv]
  simp only []
  rw [ts_eta t h0, if_pos hv]

theorem parseTSfrac_renderWhole_none (t : TS) (hv : validTS t = true) :
    parseTSfrac (renderWhole t) = none := by
  unfold parseTSfrac
  rw [parseTSCore_render_nil t hv]
  rfl

theorem parseTSfrac_render (t : TS) (hv : validTS t = true) :
    parseTSfrac (renderFrac t) = some t := by
  obtain ⟨_, _, _, _, _, _, hu⟩ := validTS_fields hv
  unfold renderFrac parseTSfrac
  rw [parseTSCore_render t ('.' :: padDigits 6 t.u) hv rfl]
  simp only []
  rw [expectChar_cons]
  simp only []
  have hdig := padDigits_all_digits 6 t.u
  have hlen : (padDigits 6 t.u).length = 6 :=
    padDigits_length 6 t.u (natChars_len6 hu)
  rw [List.takeWhile_eq_self_iff.mpr hdig,
    List.dropWhile_eq_nil_iff.mpr (fun x hx => hdig x hx)]
  rw [if_pos (by rw [hlen]; exact ⟨by omega, by omega, rfl⟩)]
  rw [natOfDigits_padDigits, hlen]
  have hexp : t.u * 10 ^ (6 - 6) = t.u := by norm_num
  rw [hexp]
  have heta : (⟨t.y, t.mo, t.d, t.h, t.mi, t.s, t.u⟩ : TS) = t := by
    cases t; rfl
  rw [heta, if_pos hv]

theorem parseTSwhole_renderFrac_none (t : TS) (hv : validTS t = true) :
    parseTSwhole (renderFrac t) = none := by
  unfold renderFrac parseTSwhole
  rw [parseTSCore_render t ('.' :: padDigits 6 t.u) hv rfl]

theorem renderWhole_length (t : TS) (hv : validTS t = true) :
    (renderWhole t).length = 19 := by
  obtain ⟨hy, hmo, hd, hh, hmi, hs, _⟩ := validTS_fields hv
  unfold renderWhole
  simp only [List.length_append, List.length_cons,
    padDigits_length 4 t.y (natChars_len4 hy),
    padDigits_length 2 t.mo (natChars_len2 (by omega)),
    padDigits_length 2 t.d (natChars_len2 (by omega)),
    padDigits_length 2 t.h (natChars_len2 (by omega)),
    padDigits_length 2 t.mi (natChars_len2 (by omega)),
    padDigits_length 2 t.s (natChars_len2 (by omega))]

theorem renderFrac_length (t : TS) (hv : validTS t = true) :
    (renderFrac t).length = 26 := by
  obtain ⟨_, _, _, _, _, _, hu⟩ := validTS_fields hv
  unfold renderFrac
  simp only [List.length_append, List.length_cons, renderWhole_length t hv,
    padDigits_length 6 t.u (natChars_len6 hu)]

theorem take26_renderWhole (t : TS) (hv : validTS t = true) :
    (renderWhole t).take 26 = renderWhole t :=
  List.take_of_length_le (by rw [renderWhole_length t hv]; omega)

theorem take26_renderFrac (t : TS) (hv : validTS t = true) :
    (renderFrac t).take 26 = renderFrac t :=
  List.take_of_length_le (by rw [renderFrac_length t hv])

/-!
## Claim theorems: timestamp formats
-/

/-- C8: corrected.  The claim states that both `read_trace` and
`parse_trace` accept the whole-second and the fractional timestamp
forms, fractional first with whole-second fallback, and that any
other format is a parse error.  In the source only `parse_trace` has
the two-format fallback (jointly for both timestamps, with the inputs
truncated to 26 characters before the fractional attempt);
`read_trace` parses with the whole-second format alone.  Amended
statement proved here: the joint timestamp step of `parse_trace`
(`parse_times`) accepts two whole-second renderings and two
fractional renderings (fractional tried first on the truncated
input), and accepts any input whose first 26 characters form a valid
fractional timestamp; the whole-second parser used by `read_trace`
rejects every fractional rendering. -/
theorem claim_C8_timestamp_formats (t u t2 u2 : TS)
    (ht : validTS t = true) (hu : validTS u = true)
    (ht0 : t.u = 0) (hu0 : u.u = 0)
    (ht2 : validTS t2 = true) (hu2 : validTS u2 = true) :
    parse_times (renderWhole t) (renderWhole u) = some (t, u) ∧
    parse_times (renderFrac t2) (renderFrac u2) = some (t2, u2) ∧
    parseTSwhole (renderFrac t2) = none ∧
    (∀ st en s e, parseTSfrac (st.take 26) = some s →
      parseTSfrac (en.take 26) = some e → parse_times st en = some (s, e)) := by
  refine ⟨?_, ?_, parseTSwhole_renderFrac_none t2 ht2, ?_⟩
  · unfold parse_times
    rw [take26_renderWhole t ht, take26_renderWhole u hu,
      parseTSfrac_renderWhole_none t ht, parseTSfrac_renderWhole_none u hu,
      parseTSwhole_render t ht ht0, parseTSwhole_render u hu hu0]
  · unfold parse_times
    rw [take26_renderFrac t2 ht2, take26_renderFrac u2 hu2,
      parseTSfrac_render t2 ht2, parseTSfrac_render u2 hu2]
  · intro st en s e h1 h2
    unfold parse_times
    rw [h1, h2]

/-- C8: witness at 2021-01-01T00:00:00 (whole) and with 500000
microseconds (fractional). -/
theorem claim_C8_witness :
    validTS ⟨2021, 1, 1, 0, 0, 0, 0⟩ = true ∧
    validTS ⟨2021, 1, 1, 0, 10, 0, 0⟩ = true ∧
    validTS ⟨2021, 1, 1, 0, 0, 0, 500000⟩ = true ∧
    validTS ⟨2021, 1, 1, 0, 10, 0, 500000⟩ = true ∧
    (parse_times (renderWhole ⟨2021, 1, 1, 0, 0, 0, 0⟩)
        (renderWhole ⟨2021, 1, 1, 0, 10, 0, 0⟩) =
      some (⟨2021, 1, 1, 0, 0, 0, 0⟩, ⟨2021, 1, 1, 0, 10, 0, 0⟩) ∧
    parse_times (renderFrac ⟨2021, 1, 1, 0, 0, 0, 500000⟩)
        (renderFrac ⟨2021, 1, 1, 0, 10, 0, 500000⟩) =
      some (⟨2021, 1, 1, 0, 0, 0, 500000⟩, ⟨2021, 1, 1, 0, 10, 0, 500000⟩) ∧
    parseTSwhole (renderFrac ⟨2021, 1, 1, 0, 0, 0, 500000⟩) = none ∧
    (∀ st en s e, parseTSfrac (st.take 26) = some s →
      parseTSfrac (en.take 26) = some e → parse_times st en = some (s, e))) :=
  ⟨by decide, by decide, by decide, by decide,
    claim_C8_timestamp_formats _ _ _ _ (by decide) (by decide) (by decide)
      (by decide) (by decide) (by decide)⟩

/-- C8: counterexample to the claim as stated: on a leaf whose
timestamps carry fractional seconds, the single-read path
`read_trace` fails (its timestamp parsing accepts only the
whole-second form) while `parse_trace` succeeds on the same leaf
name. -/
theorem claim_C8_counterexample :
    read_trace
      "/Waveforms/UW.OSD/UW.OSD..EHZ__2021-01-01T00:00:00.500000__2021-01-01T00:10:00.500000__raw"
      60001 = none ∧
    (parse_trace
      "UW.OSD..EHZ__2021-01-01T00:00:00.500000__2021-01-01T00:10:00.500000__raw"
      60001).isSome = true :=
  ⟨rfl, rfl⟩

/-!
## Claim theorems: channel handling
-/

/-- A leaf name assembled from its convention fields. -/
def leafName (net sta loc cha st en tag : String) : String :=
  net ++ "." ++ sta ++ "." ++ loc ++ "." ++ cha ++ "__" ++ st ++ "__" ++ en ++
    "__" ++ tag

/-- The full dataset path of a waveform leaf. -/
def leafPath (stn nm : String) : String := "/Waveforms/" ++ stn ++ "/" ++ nm

/-- A field free of underscores, dots and slashes. -/
def plainB (s : String) : Bool := noChar '_' s && noChar '.' s && noChar '/' s

theorem noChar_mem {ch : Char} {s : String} (h : noChar ch s = true) :
    ∀ c ∈ s.data, ¬c = ch := by
  intro c hc
  have := List.all_eq_true.mp h c hc
  simpa using this

theorem plainB_spec {s : String} (h : plainB s = true) :
    noChar '_' s = true ∧ noChar '.' s = true ∧ noChar '/' s = true := by
  simp only [plainB, Bool.and_eq_true] at h
  exact ⟨h.1.1, h.1.2, h.2⟩

theorem leafName_data (net sta loc cha st en tag : String) :
    (leafName net sta loc cha st en tag).data =
      net.data ++ '.' :: (sta.data ++ '.' :: (loc.data ++ '.' :: (cha.data ++
        '_' :: '_' :: (st.data ++ '_' :: '_' :: (en.data ++ '_' :: '_' ::
          tag.data))))) := by
  simp [leafName, String.data_append, List.append_assoc]

theorem mem_code_not_us {net sta loc cha : String} {c : Char}
    (hnet : plainB net = true) (hsta : plainB sta = true)
    (hloc : plainB loc = true) (hcha : plainB cha = true)
    (hc : c ∈ net.data ++ '.' :: (sta.data ++ '.' :: (loc.data ++ '.' ::
      cha.data))) : ¬c = '_' := by
  simp only [List.mem_append, List.mem_cons] at hc
  rcases hc with hc | hc | hc | hc | hc | hc | hc
  · exact noChar_mem (plainB_spec hnet).1 c hc
  · subst hc; decide
  · exact noChar_mem (plainB_spec hsta).1 c hc
  · subst hc; decide
  · exact noChar_mem (plainB_spec hloc).1 c hc
  · subst hc; decide
  · exact noChar_mem (plainB_spec hcha).1 c hc

theorem splitOn2_leafName (net sta loc cha st en tag : String)
    (hnet : plainB net = true) (hsta : plainB sta = true)
    (hloc : plainB loc = true) (hcha : plainB cha = true)
    (hst : plainB st = true) (hen : plainB en = true)
    (htag : noDUS tag.data = true) :
    splitOn2 (leafName net sta loc cha st en tag).data =
      [net.data ++ '.' :: (sta.data ++ '.' :: (loc.data ++ '.' :: cha.data)),
        st.data, en.data, tag.data] := by
  rw [leafName_data]
  have hre : net.data ++ '.' :: (sta.data ++ '.' :: (loc.data ++ '.' ::
      (cha.data ++ '_' :: '_' :: (st.data ++ '_' :: '_' :: (en.data ++
        '_' :: '_' :: tag.data))))) =
      (net.data ++ '.' :: (sta.data ++ '.' :: (loc.data ++ '.' :: cha.data))) ++
        '_' :: '_' :: (st.data ++ '_' :: '_' :: (en.data ++ '_' :: '_' ::
          tag.data)) := by
    simp [List.append_assoc]
  rw [hre]
  rw [splitOn2_append _ _ (fun c hc => mem_code_not_us hnet hsta hloc hcha hc)]
  rw [splitOn2_append _ _ (noChar_mem (plainB_spec hst).1)]
  rw [splitOn2_append _ _ (noChar_mem (plainB_spec hen).1)]
  rw [splitOn2_noDUS _ htag]

theorem splitOnChar_code (net sta loc cha : String)
    (hnet : plainB net = true) (hsta : plainB sta = true)
    (hloc : plainB loc = true) (hcha : plainB cha = true) :
    splitOnChar '.' (net.data ++ '.' :: (sta.data ++ '.' :: (loc.data ++
      '.' :: cha.data))) = [net.data, sta.data, loc.data, cha.data] := by
  rw [splitOnChar_append '.' _ _ (noChar_mem (plainB_spec hnet).2.1)]
  rw [splitOnChar_append '.' _ _ (noChar_mem (plainB_spec hsta).2.1)]
  rw [splitOnChar_append '.' _ _ (noChar_mem (plainB_spec hloc).2.1)]
  rw [splitOnChar_none '.' _ (noChar_mem (plainB_spec hcha).2.1)]

/-- C9: corrected.  The claim states that both `read_trace` and
`parse_trace` store the channel truncated to at most three characters
of the channel subfield.  `parse_trace` stores the channel subfield
unmodified (see the counterexample with the four-character channel
`EHZX`); `read_trace` stores the first three characters of the fourth
dot-segment of the leaf name, which is the three-character prefix of
the channel subfield whenever that subfield has at least three
characters.  Both behaviours are proved here for every leaf name
assembled from separator-free fields. -/
theorem claim_C9_channel_truncation
    (net sta loc cha st en tag stn : String) (len : Nat)
    (hnet : plainB net = true) (hsta : plainB sta = true)
    (hloc : plainB loc = true) (hcha : plainB cha = true)
    (hst : plainB st = true) (hen : plainB en = true)
    (htag : (noDUS tag.data && noChar '.' tag && noChar '/' tag) = true)
    (hstn : noChar '_' stn = true)
    (hchalen : 3 ≤ cha.data.length) :
    (parse_trace (leafName net sta loc cha st en tag) len).map
        TraceRec.channel =
      (parse_trace (leafName net sta loc cha st en tag) len).map
        (fun _ => cha) ∧
    (read_trace (leafPath stn (leafName net sta loc cha st en tag)) len).map
        ReadTraceRec.channel =
      (read_trace (leafPath stn (leafName net sta loc cha st en tag)) len).map
        (fun _ => String.mk (cha.data.take 3)) := by
  have htag1 : noDUS tag.data = true := by
    simp only [Bool.and_eq_true] at htag
    exact htag.1.1
  have htag2 : noChar '.' tag = true := by
    simp only [Bool.and_eq_true] at htag
    exact htag.1.2
  have htag3 : noChar '/' tag = true := by
    simp only [Bool.and_eq_true] at htag
    exact htag.2
  constructor
  · unfold parse_trace
    rw [splitOn2_leafName net sta loc cha st en tag hnet hsta hloc hcha hst hen
      htag1]
    simp only []
    rw [splitOnChar_code net sta loc cha hnet hsta hloc hcha]
    simp only []
    cases hp : parse_times st.data en.data with
    | none => rfl
    | some se =>
      obtain ⟨s, e⟩ := se
      by_cases hdm : deltaMicros s e = 0
      · simp [hdm]
      · simp [hdm]
  · -- the full dataset path: its last slash-segment is the leaf name and
    -- its double-underscore split has the timestamps at positions 1 and 2
    have hpath_data : (leafPath stn (leafName net sta loc cha st en tag)).data =
        (("/Waveforms/" ++ stn).data) ++ '/' ::
          (leafName net sta loc cha st en tag).data := by
      simp [leafPath, String.data_append, List.append_assoc]
    have hname_noslash : ∀ c ∈ (leafName net sta loc cha st en tag).data,
        ¬c = '/' := by
      intro c hc
      rw [leafName_data] at hc
      simp only [List.mem_append, List.mem_cons] at hc
      rcases hc with hc | hc | hc | hc | hc | hc | hc | hc | hc | hc | hc | hc |
        hc | hc | hc
      · exact noChar_mem (plainB_spec hnet).2.2 c hc
      · subst hc; decide
      · exact noChar_mem (plainB_spec hsta).2.2 c hc
      · subst hc; decide
      · exact noChar_mem (plainB_spec hloc).2.2 c hc
      · subst hc; decide
      · exact noChar_mem (plainB_spec hcha).2.2 c hc
      · subst hc; decide
      · subst hc; decide
      · exact noChar_mem (plainB_spec hst).2.2 c hc
      · subst hc; decide
      · subst hc; decide
      · exact noChar_mem (plainB_spec hen).2.2 c hc
      · subst hc; decide
      · rcases hc with hc | hc
        · subst hc; decide
        · exact noChar_mem htag3 c hc
    have hlast : lastSeg (leafPath stn
        (leafName net sta loc cha st en tag)).data =
        (leafName net sta loc cha st en tag).data := by
      rw [hpath_data]
      exact lastSeg_slash_append _ _ hname_noslash
    have hflat : (leafPath stn (leafName net sta loc cha st en tag)).data =
        ((("/Waveforms/" ++ stn).data ++ '/' :: (net.data ++ '.' ::
          (sta.data ++ '.' :: (loc.data ++ '.' :: cha.data)))) ++
          '_' :: '_' :: (st.data ++ '_' :: '_' :: (en.data ++ '_' :: '_' ::
            tag.data))) := by
      rw [hpath_data, leafName_data]
      simp [List.append_assoc]
    have hpre_us : ∀ c ∈ ("/Waveforms/" ++ stn).data ++ '/' :: (net.data ++
        '.' :: (sta.data ++ '.' :: (loc.data ++ '.' :: cha.data))), ¬c = '_' := by
      intro c hc
      simp only [List.mem_append, List.mem_cons] at hc
      rcases hc with hc | hc | hc
      · rw [String.data_append] at hc
        rcases List.mem_append.mp hc with hc | hc
        · have hall : ∀ x ∈ ("/Waveforms/" : String).data, ¬x = '_' := by decide
          exact hall c hc
        · exact noChar_mem hstn c hc
      · subst hc; decide
      · exact mem_code_not_us hnet hsta hloc hcha (by
          simpa [List.mem_append, List.mem_cons] using hc)
    have hsplit_path : splitOn2 (leafPath stn
        (leafName net sta loc cha st en tag)).data =
        [("/Waveforms/" ++ stn).data ++ '/' :: (net.data ++ '.' ::
          (sta.data ++ '.' :: (loc.data ++ '.' :: cha.data))),
          st.data, en.data, tag.data] := by
      rw [hflat]
      rw [splitOn2_append _ _ hpre_us]
      rw [splitOn2_append _ _ (noChar_mem (plainB_spec hst).1)]
      rw [splitOn2_append _ _ (noChar_mem (plainB_spec hen).1)]
      rw [splitOn2_noDUS _ htag1]
    have hsplit_name : splitOnChar '.'
        (leafName net sta loc cha st en tag).data =
        [net.data, sta.data, loc.data,
          cha.data ++ '_' :: '_' :: (st.data ++ '_' :: '_' :: (en.data ++
            '_' :: '_' :: tag.data))] := by
      rw [leafName_data]
      rw [splitOnChar_append '.' _ _ (noChar_mem (plainB_spec hnet).2.1)]
      rw [splitOnChar_append '.' _ _ (noChar_mem (plainB_spec hsta).2.1)]
      rw [splitOnChar_append '.' _ _ (noChar_mem (plainB_spec hloc).2.1)]
      rw [splitOnChar_none '.' _ ?_]
      · intro c hc
        simp only [List.mem_append, List.mem_cons] at hc
        rcases hc with hc | hc | hc | hc | hc | hc | hc | hc | hc
        · exact noChar_mem (plainB_spec hcha).2.1 c hc
        · subst hc; decide
        · subst hc; decide
        · exact noChar_mem (plainB_spec hst).2.1 c hc
        · subst hc; decide
        · subst hc; decide
        · exact noChar_mem (plainB_spec hen).2.1 c hc
        · subst hc; decide
        · rcases hc with hc | hc
          · subst hc; decide
          · exact noChar_mem htag2 c hc
    have htake3 : (cha.data ++ '_' :: '_' :: (st.data ++ '_' :: '_' ::
        (en.data ++ '_' :: '_' :: tag.data))).take 3 = cha.data.take 3 :=
      List.take_append_of_le_length hchalen
    unfold read_trace
    simp only [hlast, hsplit_path, hsplit_name]
    cases h1 : parseTSwhole st.data with
    | none => simp [h1]
    | some s =>
      cases h2 : parseTSwhole en.data with
      | none => simp [h1, h2]
      | some e =>
        by_cases hdm : deltaMicros s e = 0
        · simp [h1, h2, hdm]
        · simp [h1, h2, hdm, htake3]

/-- C9: counterexample to the claim as stated: `parse_trace` stores the
four-character channel subfield `EHZX` in full, not truncated to three
characters. -/
theorem claim_C9_counterexample :
    (parse_trace "UW.OSD..EHZX__2021-01-01T00:00:00__2021-01-01T00:10:00__raw"
      100).map TraceRec.channel = some "EHZX" ∧
    ¬(("EHZX" : String).length ≤ 3) :=
  ⟨rfl, by decide⟩

/-- C9: witness for the amended theorem at a four-character channel. -/
theorem claim_C9_witness :
    plainB "UW" = true ∧ plainB "OSD" = true ∧ plainB "" = true ∧
    plainB "EHZX" = true ∧ plainB "2021-01-01T00:00:00" = true ∧
    plainB "2021-01-01T00:10:00" = true ∧
    (noDUS ("raw" : String).data && noChar '.' "raw" && noChar '/' "raw")
      = true ∧
    noChar '_' "UW.OSD" = true ∧ 3 ≤ ("EHZX" : String).data.length ∧
    ((parse_trace (leafName "UW" "OSD" "" "EHZX" "2021-01-01T00:00:00"
          "2021-01-01T00:10:00" "raw") 100).map TraceRec.channel =
        (parse_trace (leafName "UW" "OSD" "" "EHZX" "2021-01-01T00:00:00"
          "2021-01-01T00:10:00" "raw") 100).map (fun _ => "EHZX") ∧
      (read_trace (leafPath "UW.OSD" (leafName "UW" "OSD" "" "EHZX"
          "2021-01-01T00:00:00" "2021-01-01T00:10:00" "raw")) 100).map
          ReadTraceRec.channel =
        (read_trace (leafPath "UW.OSD" (leafName "UW" "OSD" "" "EHZX"
          "2021-01-01T00:00:00" "2021-01-01T00:10:00" "raw")) 100).map
          (fun _ => String.mk (("EHZX" : String).data.take 3))) :=
  ⟨by decide, by decide, by decide, by decide, by decide, by decide, by decide,
    by decide, by decide,
    claim_C9_channel_truncation "UW" "OSD" "" "EHZX" "2021-01-01T00:00:00"
      "2021-01-01T00:10:00" "raw" "UW.OSD" 100 (by decide) (by decide)
      (by decide) (by decide) (by decide) (by decide) (by decide) (by decide)
      (by decide)⟩

/-!
## Accessors: tag filtering, station lookup, events, auxiliary data
-/

/-- Outcome of `WaveformAccessor.filter_data`: a list of resolved leaf
names, the `WaveformNotInFileError` for a missing tag, or the final
`AttributeError`. -/
inductive FilterOut where
  | ok (items : List String) : FilterOut
  | tagNotFound : FilterOut
  | attrError : FilterOut
deriving DecidableEq

/-- Python `"__" in item`: whether two consecutive underscores occur. -/
def containsSep : Bytes → Bool
  | [] => false
  | [_] => false
  | a :: b :: rest => (a = '_' && b = '_') || containsSep (b :: rest)

/-- `WaveformAccessor.filter_data` of `utils.py`: `StationXML` and
exact leaf names resolve to themselves; a selector with no `__` is a
tag and resolves to every leaf ending in `__` plus the tag, raising
`WaveformNotInFileError` when none does; anything else raises
`AttributeError`.  `leaves` is `self.list()[0]`, the keys of the
station's index entry. -/
def filter_data (leaves : List String) (item : String) : FilterOut :=
  if item = "StationXML" then .ok [item]
  else if item ∈ leaves then .ok [item]
  else if !(containsSep item.data) then
    let keys := leaves.filter
      (fun l => List.isSuffixOf ('_' :: '_' :: item.data) l.data)
    if keys = [] then .tagNotFound else .ok keys
  else .attrError

/-- C4: confirmed.  For a selector with no `__` separator that is
neither `StationXML` nor an exact leaf name, `filter_data` returns
exactly the leaves ending in `__` plus the selector, and raises the
tag-not-found error if and only if that set is empty. -/
theorem claim_C4_tag_resolution (leaves : List String) (item : String)
    (hsep : containsSep item.data = false)
    (hxml : item ≠ "StationXML") (hexact : item ∉ leaves) :
    (∀ out, filter_data leaves item = .ok out ↔
      (out = leaves.filter
          (fun l => List.isSuffixOf ('_' :: '_' :: item.data) l.data) ∧
        leaves.filter
          (fun l => List.isSuffixOf ('_' :: '_' :: item.data) l.data) ≠ [])) ∧
    (filter_data leaves item = .tagNotFound ↔
      leaves.filter
        (fun l => List.isSuffixOf ('_' :: '_' :: item.data) l.data) = []) := by
  unfold filter_data
  rw [if_neg hxml, if_neg hexact, hsep]
  rw [if_pos (by decide)]
  by_cases hk : leaves.filter
      (fun l => List.isSuffixOf ('_' :: '_' :: item.data) l.data) = []
  · rw [if_pos hk]
    refine ⟨fun out => ⟨fun h => FilterOut.noConfusion h,
      fun h => absurd hk h.2⟩, ⟨fun _ => hk, fun _ => rfl⟩⟩
  · rw [if_neg hk]
    refine ⟨fun out => ⟨fun h => ⟨(FilterOut.ok.inj h).symm, hk⟩,
      fun h => by rw [h.1]⟩, ⟨fun h => FilterOut.noConfusion h,
        fun h => absurd h hk⟩⟩

/-- C4: witness: tag selectors `raw` and `proc` over three leaves, and
a missing tag. -/
theorem claim_C4_witness :
    containsSep ("raw" : String).data = false ∧
    ("raw" : String) ≠ "StationXML" ∧
    ("raw" : String) ∉ ["A__x__y__raw", "B__x__y__raw", "C__x__y__proc"] ∧
    (filter_data ["A__x__y__raw", "B__x__y__raw", "C__x__y__proc"] "raw" =
      .ok ["A__x__y__raw", "B__x__y__raw"] ↔
      (["A__x__y__raw", "B__x__y__raw"] =
        ["A__x__y__raw", "B__x__y__raw", "C__x__y__proc"].filter
          (fun l => List.isSuffixOf ('_' :: '_' :: ("raw" : String).data) l.data) ∧
       ["A__x__y__raw", "B__x__y__raw", "C__x__y__proc"].filter
          (fun l => List.isSuffixOf ('_' :: '_' :: ("raw" : String).data) l.data)
         ≠ [])) :=
  ⟨by decide, by decide, by decide,
    (claim_C4_tag_resolution ["A__x__y__raw", "B__x__y__raw", "C__x__y__proc"]
      "raw" (by decide) (by decide) (by decide)).1
      ["A__x__y__raw", "B__x__y__raw"]⟩

/-- The two Python error kinds the station lookup distinguishes. -/
inductive PyMapErr where
  | keyError : PyMapErr
  | attrError : PyMapErr
deriving DecidableEq

/-- Python `item.replace("_", ".")`. -/
def replaceUS (s : String) : String :=
  String.mk (s.data.map (fun c => if c = '_' then '.' else c))

/-- `StationAccessor.__getattr__` of `utils.py`: optional substitution,
then membership in the station list; a miss is an `AttributeError`.
The returned accessor is identified by its station name. -/
def station_getattr (stations : List String) (item : String) (rep : Bool) :
    Except PyMapErr String :=
  let it := if rep then replaceUS item else item
  if it ∈ stations then .ok it else .error .attrError

/-- `StationAccessor.__getitem__` of `utils.py`: try the exact key, on
`AttributeError` retry with substitution, and turn a second miss into a
`KeyError`. -/
def station_getitem (stations : List String) (item : String) :
    Except PyMapErr String :=
  match station_getattr stations item false with
  | .ok s => .ok s
  | .error _ =>
    match station_getattr stations item true with
    | .ok s => .ok s
    | .error _ => .error .keyError

/-- C5: corrected.  The exact-first, substitute-second, `KeyError`-last
behaviour of indexed station lookup holds as claimed; the "both
spellings resolve to the same station" consequence additionally needs
the literal underscore spelling not to name a station itself, since the
exact form takes precedence (see the counterexample). -/
theorem claim_C5_station_lookup (stations : List String) (k : String) :
    (k ∈ stations → station_getitem stations k = .ok k) ∧
    (k ∉ stations → replaceUS k ∈ stations →
      station_getitem stations k = .ok (replaceUS k)) ∧
    (k ∉ stations → replaceUS k ∉ stations →
      station_getitem stations k = .error .keyError) ∧
    ("UW.OSD" ∈ stations → "UW_OSD" ∉ stations →
      station_getitem stations "UW.OSD" = .ok "UW.OSD" ∧
      station_getitem stations "UW_OSD" = .ok "UW.OSD") := by
  refine ⟨?_, ?_, ?_, ?_⟩
  · intro h
    simp [station_getitem, station_getattr, h]
  · intro h1 h2
    simp [station_getitem, station_getattr, h1, h2]
  · intro h1 h2
    simp [station_getitem, station_getattr, h1, h2]
  · intro h1 h2
    constructor
    · simp [station_getitem, station_getattr, h1]
    · have hrep : replaceUS "UW_OSD" = "UW.OSD" := by decide
      simp [station_getitem, station_getattr, h1, h2, hrep]

/-- C5: witness over the one-station index `UW.OSD`. -/
theorem claim_C5_witness :
    ("UW.OSD" : String) ∈ ["UW.OSD"] ∧ ("UW_OSD" : String) ∉ ["UW.OSD"] ∧
    (station_getitem ["UW.OSD"] "UW.OSD" = .ok "UW.OSD" ∧
      station_getitem ["UW.OSD"] "UW_OSD" = .ok "UW.OSD") :=
  ⟨by decide, by decide,
    (claim_C5_station_lookup ["UW.OSD"] "UW.OSD").2.2.2 (by decide) (by decide)⟩

/-- C5: counterexample to the "in particular" consequence as stated:
when the index also contains the literal station name `UW_OSD`, the key
`UW_OSD` resolves to that station by the exact-first rule, not to
`UW.OSD`. -/
theorem claim_C5_counterexample :
    station_getitem ["UW.OSD", "UW_OSD"] "UW_OSD" = .ok "UW_OSD" ∧
    station_getitem ["UW.OSD", "UW_OSD"] "UW_OSD" ≠ .ok "UW.OSD" ∧
    ("UW.OSD" : String) ∈ ["UW.OSD", "UW_OSD"] :=
  ⟨rfl, by intro h; exact absurd (Except.ok.inj h) (by decide), by decide⟩

/-- The result of the external event parse: either the empty obspy
catalog or a catalog parsed from the raw QuakeML bytes. -/
inductive EventCatalog where
  | empty : EventCatalog
  | fromQuakeML (raw : Bytes) : EventCatalog
deriving DecidableEq

/-- `CloudASDFDataSet.read_events` of `asdf_data_set.py`: read the
dataset `/QuakeML` through the gateway unconditionally, strip it and
hand it to the external parser; a failed gateway read raises.  The
gateway is a function from paths to optional raw payloads. -/
def read_events (g : String → Option Bytes) : Option EventCatalog :=
  match g "/QuakeML" with
  | some raw => some (.fromQuakeML (pyStrip raw))
  | none => none

/-- The events step of `CloudASDFDataSet.__init__`: when the decoded
index has no `QuakeML` key the events collection becomes the empty
catalog without any read; otherwise `read_events` runs. -/
def init_events (asdfdict : PyObj) (g : String → Option Bytes) :
    Option EventCatalog :=
  match asdfdict with
  | .dict es => if es.keys.contains "QuakeML" then read_events g else some .empty
  | _ => none

/-- C6: corrected.  The claim attributes the events-absent policy to
`read_events`; in the source the guard lives in `__init__`
(`read_events` itself reads `/QuakeML` unconditionally and fails when
it is absent).  Amended statement proved here: for every index without
a `QuakeML` key, construction initializes the empty catalog without
touching the gateway, and `read_events` itself fails whenever the
gateway has no `/QuakeML` dataset. -/
theorem claim_C6_events_absent (es : PyEntries) (g : String → Option Bytes)
    (h : es.keys.contains "QuakeML" = false) :
    init_events (.dict es) g = some .empty ∧
    (g "/QuakeML" = none → read_events g = none) := by
  have hmem : "QuakeML" ∉ es.keys := by simpa using h
  constructor
  · simp [init_events, hmem]
  · intro hg
    simp [read_events, hg]

/-- C6: witness on an index holding only a `Waveforms` group and an
empty gateway. -/
theorem claim_C6_witness :
    (PyEntries.cons "Waveforms" (.dict .nil) .nil).keys.contains "QuakeML"
      = false ∧
    (init_events (.dict (.cons "Waveforms" (.dict .nil) .nil))
        (fun _ => none) = some .empty ∧
      ((fun (_ : String) => (none : Option Bytes)) "/QuakeML" = none →
        read_events (fun _ => none) = none)) :=
  ⟨rfl, claim_C6_events_absent (.cons "Waveforms" (.dict .nil) .nil)
    (fun _ => none) rfl⟩

/-- C6: counterexample to the claim as stated: with no `/QuakeML`
dataset behind the gateway, `read_events` fails instead of returning
the empty catalog. -/
theorem claim_C6_counterexample :
    read_events (fun _ => none) = none ∧
    read_events (fun _ => none) ≠ some .empty :=
  ⟨rfl, by intro h; cases h⟩

/-- Insert into a sorted list of strings (ascending). -/
def insertStr (s : String) : List String → List String
  | [] => [s]
  | t :: ts => if s ≤ t then s :: t :: ts else t :: insertStr s ts

/-- Python `sorted` on strings, as a stable insertion sort. -/
def sortStrings : List String → List String
  | [] => []
  | s :: ss => insertStr s (sortStrings ss)

theorem mem_insertStr (s x : String) : ∀ l : List String,
    x ∈ insertStr s l ↔ x = s ∨ x ∈ l
  | [] => by simp [insertStr]
  | t :: ts => by
    by_cases h : s ≤ t
    · simp [insertStr, h]
    · simp [insertStr, h, mem_insertStr s x ts]
      tauto

theorem mem_sortStrings (x : String) : ∀ l : List String,
    x ∈ sortStrings l ↔ x ∈ l
  | [] => by simp [sortStrings]
  | s :: ss => by
    simp [sortStrings, mem_insertStr s x (sortStrings ss), mem_sortStrings x ss]

/-- The entries of an association list, in order. -/
def entriesOfList : List (String × PyObj) → PyEntries
  | [] => .nil
  | (k, v) :: r => .cons k v (entriesOfList r)

theorem app_nil_right : ∀ a : PyEntries, a.app .nil = a
  | .nil => rfl
  | .cons k v tl => by simp [PyEntries.app, app_nil_right tl]

theorem app_assoc : ∀ a b c : PyEntries, (a.app b).app c = a.app (b.app c)
  | .nil, _, _ => rfl
  | .cons k v tl, b, c => by simp [PyEntries.app, app_assoc tl b c]

theorem keys_app : ∀ a b : PyEntries, (a.app b).keys = a.keys ++ b.keys
  | .nil, b => rfl
  | .cons k v tl, b => by simp [PyEntries.app, PyEntries.keys, keys_app tl b]

theorem keys_entriesOfList : ∀ l : List (String × PyObj),
    (entriesOfList l).keys = l.map Prod.fst
  | [] => rfl
  | (k, v) :: r => by simp [entriesOfList, PyEntries.keys, keys_entriesOfList r]

theorem updateOne_fresh : ∀ (es : PyEntries) (k : String) (v : PyObj),
    k ∉ es.keys → es.updateOne k v = es.app (.cons k v .nil)
  | .nil, _, _, _ => rfl
  | .cons k0 v0 tl, k, v, h => by
    have hne : ¬(k0 = k) := by
      intro he
      exact h (by rw [he] at *; exact List.mem_cons_self _ _)
    have htl : k ∉ tl.keys := fun hc => h (List.mem_cons_of_mem _ hc)
    simp [PyEntries.updateOne, hne, PyEntries.app, updateOne_fresh tl k v htl]

theorem updateMany_fresh : ∀ (l : List (String × PyObj)) (acc : PyEntries),
    (∀ kv ∈ l, kv.1 ∉ acc.keys) → (l.map Prod.fst).Nodup →
    acc.updateMany l = acc.app (entriesOfList l)
  | [], acc, _, _ => by
    simp [PyEntries.updateMany, entriesOfList, app_nil_right]
  | (k, v) :: r, acc, hfresh, hnodup => by
    simp only [PyEntries.updateMany]
    have hk : k ∉ acc.keys := hfresh (k, v) (List.mem_cons_self _ _)
    have hkeys : (acc.updateOne k v).keys = acc.keys ++ [k] := by
      rw [updateOne_fresh acc k v hk, keys_app]
      rfl
    have hh : (k :: r.map Prod.fst).Nodup := by simpa using hnodup
    have hknotr : k ∉ r.map Prod.fst := (List.nodup_cons.mp hh).1
    have hfresh2 : ∀ kv ∈ r, kv.1 ∉ (acc.updateOne k v).keys := by
      intro kv hkv
      rw [hkeys]
      intro hc
      rcases List.mem_append.mp hc with hc | hc
      · exact hfresh kv (List.mem_cons_of_mem _ hkv) hc
      · have : kv.1 = k := by simpa using hc
        exact hknotr (this ▸ List.mem_map_of_mem Prod.fst hkv)
    have hnodup2 : (r.map Prod.fst).Nodup := (List.nodup_cons.mp hh).2
    rw [updateMany_fresh r (acc.updateOne k v) hfresh2 hnodup2,
      updateOne_fresh acc k v hk, app_assoc]
    rfl

theorem validH5C_cons {n : String} {o : H5Obj} {tl : H5Children}
    (h : validH5C (.cons n o tl) = true) :
    okName n = true ∧ tl.hasName n = false ∧ validH5 o = true ∧
      validH5C tl = true := by
  simp only [validH5C, Bool.and_eq_true] at h
  refine ⟨h.1.1.1, ?_, h.1.2, h.2⟩
  have h2 := h.1.1.2
  cases hx : tl.hasName n
  · rfl
  · rw [hx] at h2
    simp at h2

theorem genList_fst : ∀ (p : String) (cs : H5Children), validH5C cs = true →
    (genList p cs).map Prod.fst = cs.names
  | _, .nil, _ => rfl
  | p, .cons n o tl, hv => by
    obtain ⟨h1, _, _, h4⟩ := validH5C_cons hv
    simp [genList, H5Children.names, gen_group_entry_fst,
      localName_childPath p n h1, genList_fst p tl h4]

theorem hasName_iff_mem : ∀ (cs : H5Children) (n : String),
    cs.hasName n = true ↔ n ∈ cs.names
  | .nil, n => by simp [H5Children.hasName, H5Children.names]
  | .cons n2 o tl, n => by
    simp only [H5Children.hasName, H5Children.names, Bool.or_eq_true,
      decide_eq_true_eq, List.mem_cons, hasName_iff_mem tl n]
    constructor
    · rintro (h | h)
      · exact Or.inl h.symm
      · exact Or.inr h
    · rintro (h | h)
      · exact Or.inl h.symm
      · exact Or.inr h

theorem names_nodup : ∀ cs : H5Children, validH5C cs = true → cs.names.Nodup
  | .nil, _ => by simp [H5Children.names]
  | .cons n o tl, hv => by
    obtain ⟨_, h2, _, h4⟩ := validH5C_cons hv
    have hnot : n ∉ tl.names := by
      intro hc
      rw [← hasName_iff_mem tl n] at hc
      rw [hc] at h2
      cases h2
    simp [H5Children.names, List.nodup_cons, hnot, names_nodup tl h4]

theorem find_valid : ∀ (cs : H5Children) (n : String) (o : H5Obj),
    validH5C cs = true → cs.find n = some o → validH5 o = true
  | .nil, n, o, _, hf => by simp [H5Children.find] at hf
  | .cons n2 o2 tl, n, o, hv, hf => by
    obtain ⟨_, _, h3, h4⟩ := validH5C_cons hv
    by_cases h : n2 = n
    · rw [H5Children.find, if_pos h] at hf
      cases hf
      exact h3
    · rw [H5Children.find, if_neg h] at hf
      exact find_valid tl n o h4 hf

theorem find_deleteAux : ∀ (cs : H5Children) (g : H5Children),
    cs.find "AuxiliaryData" = some (.group g) →
    (deleteAux cs).find "AuxiliaryData" =
      some (.group (g.remove "ASDFDict"))
  | .nil, g, hf => by simp [H5Children.find] at hf
  | .cons n o tl, g, hf => by
    by_cases h : n = "AuxiliaryData"
    · subst h
      rw [H5Children.find, if_pos rfl] at hf
      cases o with
      | dataset l => cases hf
      | group g0 =>
        have : g0 = g := by
          injection hf with h1
          injection h1
        subst this
        simp [deleteAux, H5Children.find]
    · rw [H5Children.find, if_neg h] at hf
      cases o <;> simp [deleteAux, h, H5Children.find, find_deleteAux tl g hf]

theorem remove_self_hasName : ∀ (g : H5Children) (m : String),
    validH5C g = true → (g.remove m).hasName m = false
  | .nil, m, _ => rfl
  | .cons n o tl, m, hv => by
    obtain ⟨_, h2, _, h4⟩ := validH5C_cons hv
    by_cases h : n = m
    · subst h
      simp [H5Children.remove, h2]
    · simp [H5Children.remove, h, H5Children.hasName, h,
        remove_self_hasName tl m h4]

/-- `AuxiliaryDataGroupAccessor` of `utils.py`: bind the
`AuxiliaryData` entry of the decoded index and list its sorted keys
(`sorted(self.auxiliarydata_dict.keys())`). -/
def aux_list (asdfdict : PyObj) : Option (List String) :=
  match pyIndex asdfdict "AuxiliaryData" with
  | some (.dict es) => some (sortStrings es.keys)
  | _ => none

/-- `AuxiliaryDataGroupAccessor.__len__`: the length of the listing. -/
def aux_len (asdfdict : PyObj) : Option Nat :=
  (aux_list asdfdict).map List.length

theorem genList_lookup : ∀ (p : String) (cs : H5Children) (n : String)
    (o : H5Obj), validH5C cs = true → cs.find n = some o →
    (entriesOfList (genList p cs)).lookup n =
      some (gen_group_entry (childPath p n) o).2
  | _, .nil, n, o, _, hf => by simp [H5Children.find] at hf
  | p, .cons n2 o2 tl, n, o, hv, hf => by
    obtain ⟨h1, _, _, h4⟩ := validH5C_cons hv
    simp only [genList, entriesOfList, PyEntries.lookup]
    rw [gen_group_entry_fst, localName_childPath p n2 h1]
    by_cases h : n2 = n
    · subst h
      rw [H5Children.find, if_pos rfl] at hf
      cases hf
      rw [if_pos rfl]
    · rw [H5Children.find, if_neg h] at hf
      rw [if_neg h]
      exact genList_lookup p tl n o h4 hf

/-- The one-entry dict generated for a valid group has the children's
pairs verbatim (the `dict.update` fold never hits an existing key). -/
theorem updateMany_genList (p : String) (cs : H5Children)
    (hv : validH5C cs = true) :
    PyEntries.nil.updateMany (genList p cs) = entriesOfList (genList p cs) := by
  rw [updateMany_fresh (genList p cs) .nil (by intro kv _; simp [PyEntries.keys])
    (by rw [genList_fst p cs hv]; exact names_nodup cs hv)]
  rfl

theorem names_remove : ∀ (g : H5Children) (m : String),
    validH5C g = true →
    ∀ n, n ∈ (g.remove m).names ↔ (n ∈ g.names ∧ ¬n = m)
  | .nil, m, _, n => by simp [H5Children.remove, H5Children.names]
  | .cons n2 o tl, m, hv, n => by
    obtain ⟨_, h2, _, h4⟩ := validH5C_cons hv
    by_cases h : n2 = m
    · subst h
      rw [H5Children.remove, if_pos rfl]
      simp only [H5Children.names, List.mem_cons]
      constructor
      · intro hn
        refine ⟨Or.inr hn, ?_⟩
        intro he
        subst he
        rw [← hasName_iff_mem] at hn
        rw [hn] at h2
        cases h2
      · rintro ⟨(rfl | hn), hne⟩
        · exact absurd rfl hne
        · exact hn
    · rw [H5Children.remove, if_neg h]
      simp only [H5Children.names, List.mem_cons, names_remove tl m h4 n]
      constructor
      · rintro (rfl | ⟨hn, hne⟩)
        · exact ⟨Or.inl rfl, h⟩
        · exact ⟨Or.inr hn, hne⟩
      · rintro ⟨(rfl | hn), hne⟩
        · exact Or.inl rfl
        · exact Or.inr ⟨hn, hne⟩

theorem insertStr_sorted (s : String) : ∀ l : List String,
    l.Sorted (fun a b => a ≤ b) → (insertStr s l).Sorted (fun a b => a ≤ b)
  | [], _ => by simp [insertStr]
  | t :: ts, h => by
    have hall := (List.sorted_cons.mp h).1
    have hts := (List.sorted_cons.mp h).2
    by_cases hle : s ≤ t
    · rw [insertStr, if_pos hle]
      refine List.sorted_cons.mpr ⟨?_, h⟩
      intro b hb
      rcases List.mem_cons.mp hb with rfl | hb
      · exact hle
      · exact le_trans hle (hall b hb)
    · rw [insertStr, if_neg hle]
      refine List.sorted_cons.mpr ⟨?_, insertStr_sorted s ts hts⟩
      intro b hb
      rcases (mem_insertStr s b ts).mp hb with rfl | hb
      · exact le_of_not_le hle
      · exact hall b hb

theorem sortStrings_sorted : ∀ l : List String,
    (sortStrings l).Sorted (fun a b => a ≤ b)
  | [] => by simp [sortStrings]
  | s :: ss => insertStr_sorted s (sortStrings ss) (sortStrings_sorted ss)

/-- C7: confirmed.  For every valid Catalog hierarchy whose root has an
`AuxiliaryData` group, the auxiliary-data accessor built on the decoded
stored index lists exactly the names under `AuxiliaryData` other than
the reserved `ASDFDict` entry, in lexically sorted order, and its
length is the size of that listing; in particular `ASDFDict` never
appears.  (The exclusion happens because `dump_dict` deletes
`/AuxiliaryData/ASDFDict` before generating the index.) -/
theorem claim_C7_aux_listing (root : H5Children) (compress : Bool)
    (g : H5Children) (hv : validH5C root = true)
    (hg : root.find "AuxiliaryData" = some (.group g)) :
    (read_asdfdict (dump_dict root compress)).bind aux_list =
        some (sortStrings (g.remove "ASDFDict").names) ∧
    (read_asdfdict (dump_dict root compress)).bind aux_len =
        some (sortStrings (g.remove "ASDFDict").names).length ∧
    (sortStrings (g.remove "ASDFDict").names).Sorted (fun a b => a ≤ b) ∧
    (∀ n, n ∈ sortStrings (g.remove "ASDFDict").names ↔
        (n ∈ g.names ∧ ¬n = "ASDFDict")) ∧
    "ASDFDict" ∉ sortStrings (g.remove "ASDFDict").names := by
  have hvg : validH5C g = true := by
    have hfv := find_valid root "AuxiliaryData" (.group g) hv hg
    simpa [validH5] using hfv
  have hvr : validH5C (g.remove "ASDFDict") = true :=
    validH5C_remove g "ASDFDict" hvg
  have hda : validH5C (deleteAux root) = true := validH5C_deleteAux root hv
  have hfind : (deleteAux root).find "AuxiliaryData" =
      some (.group (g.remove "ASDFDict")) := find_deleteAux root g hg
  have hread : read_asdfdict (dump_dict root compress) =
      some (gen_group_entry "/" (.group (deleteAux root))).2 := by
    have hfst : (gen_group_entry "/" (.group (deleteAux root))).1 = "" := by
      rw [gen_group_entry_fst, localName_root]
    unfold read_asdfdict
    rw [read_dict_dump_dict root compress hv]
    simp [gen_group_dict, pyIndex, PyEntries.lookup, hfst]
  have hsnd : (gen_group_entry "/" (.group (deleteAux root))).2 =
      .dict (entriesOfList (genList "/" (deleteAux root))) := by
    simp [gen_group_entry, updateMany_genList "/" (deleteAux root) hda]
  have h2 : (gen_group_entry (childPath "/" "AuxiliaryData")
      (.group (g.remove "ASDFDict"))).2 =
      .dict (entriesOfList (genList (childPath "/" "AuxiliaryData")
        (g.remove "ASDFDict"))) := by
    simp [gen_group_entry,
      updateMany_genList (childPath "/" "AuxiliaryData")
        (g.remove "ASDFDict") hvr]
  have haux : aux_list (gen_group_entry "/" (.group (deleteAux root))).2 =
      some (sortStrings (g.remove "ASDFDict").names) := by
    rw [hsnd]
    unfold aux_list
    simp only [pyIndex]
    rw [genList_lookup "/" (deleteAux root) "AuxiliaryData"
      (.group (g.remove "ASDFDict")) hda hfind, h2]
    simp only []
    rw [keys_entriesOfList,
      genList_fst (childPath "/" "AuxiliaryData") (g.remove "ASDFDict") hvr]
  have hmem : ∀ n, n ∈ sortStrings (g.remove "ASDFDict").names ↔
      (n ∈ g.names ∧ ¬n = "ASDFDict") := by
    intro n
    rw [mem_sortStrings n (g.remove "ASDFDict").names,
      names_remove g "ASDFDict" hvg n]
  refine ⟨?_, ?_, sortStrings_sorted _, hmem, ?_⟩
  · rw [hread, Option.some_bind, haux]
  · rw [hread, Option.some_bind]
    unfold aux_len
    rw [haux]
    rfl
  · intro hc
    exact ((hmem "ASDFDict").mp hc).2 rfl

/-- C7: witness.  A root whose `AuxiliaryData` group contains the
reserved `ASDFDict` dataset and one auxiliary type `XCorr`: the listing
is exactly `[XCorr]`. -/
theorem claim_C7_witness :
    validH5C (H5Children.cons "AuxiliaryData"
        (.group (.cons "ASDFDict" (.dataset 5)
          (.cons "XCorr" (.group .nil) .nil))) .nil) = true ∧
    (read_asdfdict (dump_dict (H5Children.cons "AuxiliaryData"
        (.group (.cons "ASDFDict" (.dataset 5)
          (.cons "XCorr" (.group .nil) .nil))) .nil) false)).bind aux_list =
      some ["XCorr"] := by
  refine ⟨by decide, ?_⟩
  have h := (claim_C7_aux_listing (H5Children.cons "AuxiliaryData"
    (.group (.cons "ASDFDict" (.dataset 5)
      (.cons "XCorr" (.group .nil) .nil))) .nil) false
    (.cons "ASDFDict" (.dataset 5) (.cons "XCorr" (.group .nil) .nil))
    (by decide) (by rfl)).1
  rw [h]
  rfl

end CloudPyASDF
